import Mathlib

set_option maxRecDepth 8000

/-!
Shallow embedding of the `TokenRegistry` component of
`examples/rag-strategy-comparison-node/index.ts` (Strategy C: consistent token
registry) and of the textually identical class in the second RAG example file.

Strings are modelled as lists of characters.  The JavaScript primitives used by
the source — `String.prototype.split` / `Array.prototype.join` (literal,
leftmost-greedy substring splitting), `Map` (insertion-ordered association with
in-place update), the stable `Array.prototype.sort`, and decimal template
interpolation of a counter — are modelled explicitly below, with fueled
structural recursion so that every definition evaluates inside the kernel.
-/

abbrev Str := List Char

def str (s : String) : Str := s.data

/-- Holds when `pat` starts `s` (the scan step used by splitting). -/
def leadsWith : Str → Str → Bool
  | [], _ => true
  | _ :: _, [] => false
  | p :: ps, c :: cs => p == c && leadsWith ps cs

/-- Holds when `pat` occurs as a contiguous substring of `s`
(JS `s.includes(pat)`). -/
def containsSub (pat : Str) : Str → Bool
  | [] => leadsWith pat []
  | c :: cs => leadsWith pat (c :: cs) || containsSub pat cs

/-- Fueled leftmost-greedy splitter: JS `s.split(sep)` for a nonempty
separator.  The fuel is always instantiated with `s.length`, which suffices
because each step consumes at least one character. -/
def splitPF (sep : Str) : Nat → Str → List Str
  | _, [] => [[]]
  | 0, c :: cs => [c :: cs]
  | f + 1, c :: cs =>
    if leadsWith sep (c :: cs) && !(List.isEmpty sep) then
      [] :: splitPF sep f (List.drop (sep.length - 1) cs)
    else
      match splitPF sep f cs with
      | [] => [c :: cs]
      | p :: ps => (c :: p) :: ps

def splitPieces (sep s : Str) : List Str := splitPF sep s.length s

/-- JS `s.split(sep)`, including the empty-separator case (which splits into
single characters). -/
def jsSplit (sep s : Str) : List Str :=
  if List.isEmpty sep then s.map (fun c => [c]) else splitPieces sep s

/-- JS `array.join(rep)`. -/
def joinWith (rep : Str) : List Str → Str
  | [] => []
  | [p] => p
  | p :: q :: ps => p ++ rep ++ joinWith rep (q :: ps)

/-- JS `s.split(sep).join(rep)` — the replacement idiom used by
`replaceInText` and `restoreText`. -/
def jsReplaceAll (sep rep s : Str) : Str := joinWith rep (jsSplit sep s)

/-- JS `\d`: an ASCII decimal digit. -/
def isDig (c : Char) : Bool := 48 ≤ c.toNat && c.toNat ≤ 57

def digitChar (d : Nat) : Char := Char.ofNat (48 + d)

/-- Fueled decimal digit expansion of a positive number (most significant
digit first).  Fuel `n` suffices for the number `n` itself. -/
def natDigitsF : Nat → Nat → Str
  | _, 0 => []
  | 0, _ + 1 => []
  | f + 1, n + 1 => natDigitsF f ((n + 1) / 10) ++ [digitChar ((n + 1) % 10)]

/-- Decimal representation of a counter value, as produced by the JS template
interpolation `${count}`. -/
def natDigits (n : Nat) : Str := if n = 0 then ['0'] else natDigitsF n n

/-- The consistent token `<EntityType_count>` built by `getOrCreate`. -/
def mkTok (ty : Str) (n : Nat) : Str := '<' :: (ty ++ '_' :: natDigits n) ++ ['>']

def dropLeadAngle : Str → Str
  | '<' :: r => r
  | s => s

def dropRevAngle : Str → Str
  | '>' :: r => r
  | s => s

/-- JS `token.replace(/^<|>$/g, "")`: strip one leading `<` and one trailing
`>` when present. -/
def stripAngles (s : Str) : Str := (dropRevAngle (dropLeadAngle s).reverse).reverse

/-- Embeds `TokenRegistry.extractEntityType`: strip the enclosing angle brackets, find
the last underscore, and drop the suffix only when it is a nonempty run of
digits and the underscore is not the first character. -/
def extractEntityType (token : Str) : Str :=
  let inner := stripAngles token
  let r := inner.reverse
  let ds := r.takeWhile isDig
  let rest := r.dropWhile isDig
  match ds, rest with
  | _ :: _, '_' :: p :: ps => (p :: ps).reverse
  | _, _ => inner

/-- JS `Map.get`: first (unique) binding of the key. -/
def mapGet {α : Type} : List (Str × α) → Str → Option α
  | [], _ => none
  | (k, v) :: r, k' => if k = k' then some v else mapGet r k'

/-- JS `Map.set`: update in place when the key is present (keeping its
position), append otherwise. -/
def mapSet {α : Type} : List (Str × α) → Str → α → List (Str × α)
  | [], k, v => [(k, v)]
  | (k0, v0) :: r, k, v => if k0 = k then (k0, v) :: r else (k0, v0) :: mapSet r k v

/-- The three fields of the `TokenRegistry` class: `registry` maps real values
to tokens, `reverse` maps tokens to real values, `counters` maps entity types
to the last used per-type number. -/
structure Registry where
  registry : List (Str × Str)
  reverse : List (Str × Str)
  counters : List (Str × Nat)

def emptyRegistry : Registry := ⟨[], [], []⟩

/-- The per-type counter as read by `getOrCreate` (`counters.get(t) || 0`). -/
def cnt (st : Registry) (ty : Str) : Nat := (mapGet st.counters ty).getD 0

/-- Embeds `TokenRegistry.getOrCreate`. -/
def getOrCreate (realValue blindfoldToken : Str) (st : Registry) : Str × Registry :=
  match mapGet st.registry realValue with
  | some t => (t, st)
  | none =>
    let entityType := extractEntityType blindfoldToken
    let count := (mapGet st.counters entityType).getD 0 + 1
    let consistentToken := mkTok entityType count
    (consistentToken,
      { registry := mapSet st.registry realValue consistentToken
        reverse := mapSet st.reverse consistentToken realValue
        counters := mapSet st.counters entityType count })

def insDesc (x : Str × Str) : List (Str × Str) → List (Str × Str)
  | [] => [x]
  | y :: ys => if x.1.length ≤ y.1.length then y :: insDesc x ys else x :: y :: ys

/-- JS stable `sort((a, b) => b[0].length - a[0].length)` on the entry list:
descending by key length, insertion order preserved among equal lengths. -/
def sortDesc (l : List (Str × Str)) : List (Str × Str) :=
  l.foldl (fun acc x => insDesc x acc) []

/-- Embeds `TokenRegistry.replaceInText`. -/
def replaceInText (st : Registry) (text : Str) : Str :=
  (sortDesc st.registry).foldl (fun result e => jsReplaceAll e.1 e.2 result) text

/-- Embeds `TokenRegistry.restoreText`. -/
def restoreText (st : Registry) (text : Str) : Str :=
  (sortDesc st.reverse).foldl (fun result e => jsReplaceAll e.1 e.2 result) text

/-- A method call on a `TokenRegistry` object. -/
inductive Op where
  | create (realValue blindfoldToken : Str)
  | repl (text : Str)
  | rest (text : Str)

/-- One method call: result string and the object state after the call
(`replaceInText` and `restoreText` assign no field). -/
def runOp (st : Registry) : Op → Str × Registry
  | .create v b => getOrCreate v b st
  | .repl t => (replaceInText st t, st)
  | .rest t => (restoreText st t, st)

/-- The registry produced by a sequence of `getOrCreate` calls starting from a
fresh object. -/
def runCreates (calls : List (Str × Str)) : Registry :=
  calls.foldl (fun st c => (getOrCreate c.1 c.2 st).2) emptyRegistry

/-- A full method-call sequence from a fresh object: the list of returned
strings, and the final state. -/
def runSeq (ops : List Op) : List Str × Registry :=
  ops.foldl (fun acc op =>
    let r := runOp acc.2 op
    (acc.1 ++ [r.1], r.2)) ([], emptyRegistry)

/-- The prompt assembled by `strategyCQuery`:
`Context:\n${context}\n\nQuestion: ${tokenizedQuery}` with the retrieved
documents joined by blank lines. -/
def strategyCPrompt (docs : List Str) (tokenizedQuery : Str) : Str :=
  str "Context:\n" ++ joinWith (str "\n\n") docs ++ str "\n\nQuestion: " ++ tokenizedQuery

namespace PartFive

/-! The `TokenRegistry` class of the second example file, embedded
independently from its own source text (which coincides with the class in
`rag-strategy-comparison-node/index.ts`).  The JS built-ins and the state
record are the shared models above. -/

def extractEntityType (token : Str) : Str :=
  let inner := stripAngles token
  let r := inner.reverse
  let ds := r.takeWhile isDig
  let rest := r.dropWhile isDig
  match ds, rest with
  | _ :: _, '_' :: p :: ps => (p :: ps).reverse
  | _, _ => inner

def getOrCreate (realValue blindfoldToken : Str) (st : Registry) : Str × Registry :=
  match mapGet st.registry realValue with
  | some t => (t, st)
  | none =>
    let entityType := PartFive.extractEntityType blindfoldToken
    let count := (mapGet st.counters entityType).getD 0 + 1
    let consistentToken := mkTok entityType count
    (consistentToken,
      { registry := mapSet st.registry realValue consistentToken
        reverse := mapSet st.reverse consistentToken realValue
        counters := mapSet st.counters entityType count })

def replaceInText (st : Registry) (text : Str) : Str :=
  (sortDesc st.registry).foldl (fun result e => jsReplaceAll e.1 e.2 result) text

def restoreText (st : Registry) (text : Str) : Str :=
  (sortDesc st.reverse).foldl (fun result e => jsReplaceAll e.1 e.2 result) text

def runOp (st : Registry) : Op → Str × Registry
  | .create v b => PartFive.getOrCreate v b st
  | .repl t => (PartFive.replaceInText st t, st)
  | .rest t => (PartFive.restoreText st t, st)

def runSeq (ops : List Op) : List Str × Registry :=
  ops.foldl (fun acc op =>
    let r := PartFive.runOp acc.2 op
    (acc.1 ++ [r.1], r.2)) ([], emptyRegistry)

end PartFive

/-! Interleaving structure used to reason about iterated replacement: a string
is viewed as alternating literal chunks and inserted token blocks. -/

inductive Seg where
  | lit (s : Str)
  | tok (t : Str)

def Seg.flat1 : Seg → Str
  | .lit s => s
  | .tok t => t

def flatS : List Seg → Str
  | [] => []
  | s :: r => s.flat1 ++ flatS r

/-- The alternation of literal pieces with copies of the token `t`; flattening
it recovers `pieces.join(t)`. -/
def segsOfPieces (t : Str) : List Str → List Seg
  | [] => []
  | [p] => [Seg.lit p]
  | p :: q :: ps => Seg.lit p :: Seg.tok t :: segsOfPieces t (q :: ps)

/-- Effect of one `split(v).join(t)` pass on the interleaving. -/
def stepSegs (v t : Str) : List Seg → List Seg
  | [] => []
  | Seg.lit l :: r => segsOfPieces t (splitPieces v l) ++ stepSegs v t r
  | Seg.tok u :: r => Seg.tok u :: stepSegs v t r

def stepAll (L : List (Str × Str)) (segs : List Seg) : List Seg :=
  L.foldl (fun sg e => stepSegs e.1 e.2 sg) segs

/-- Effect of one `split(u).join(vv)` restore pass on the interleaving: blocks
holding exactly the token `u` become the literal `vv`. -/
def restoreBlocks (u vv : Str) (segs : List Seg) : List Seg :=
  segs.map fun s => match s with
    | Seg.lit l => Seg.lit l
    | Seg.tok t => if t = u then Seg.lit vv else Seg.tok t

def restoreAll (L : List (Str × Str)) (segs : List Seg) : List Seg :=
  L.foldl (fun sg e => restoreBlocks e.1 e.2 sg) segs

/-- No two adjacent literal chunks (so every boundary touches a token block). -/
def noAdjLit : List Seg → Prop
  | [] => True
  | Seg.lit _ :: Seg.lit _ :: _ => False
  | _ :: r => noAdjLit r

def LitsOK (P : Str → Prop) (vals : List Str) (segs : List Seg) : Prop :=
  ∀ l, Seg.lit l ∈ segs → P l ∧ ∀ v ∈ vals, containsSub v l = false

def ToksOK (toks : List Str) (segs : List Seg) : Prop :=
  ∀ u, Seg.tok u ∈ segs → u ∈ toks

/-- A string shaped like a generated token: `<` then anything then `>`. -/
def GoodTok (t : Str) : Prop := ∃ i, t = '<' :: i ++ ['>']

/-- A token whose inner part is bracket-free. -/
def WfTok (t : Str) : Prop := ∃ i, t = '<' :: i ++ ['>'] ∧ '<' ∉ i ∧ '>' ∉ i

/-- Replace every token block by the real value recorded for it in the reverse
map; flattening then yields the text that restoring should produce. -/
def mappedFlat (st : Registry) (segs : List Seg) : Str :=
  flatS (segs.map fun s => match s with
    | Seg.lit l => Seg.lit l
    | Seg.tok t => Seg.lit ((mapGet st.reverse t).getD []))

/-- Structural invariant of every reachable registry: the reverse map mirrors
the forward map, keys and tokens are duplicate-free, and every token has the
generated shape with a number no larger than its type's counter. -/
def RegInv (st : Registry) : Prop :=
  st.reverse = st.registry.map (fun p => (p.2, p.1)) ∧
  (st.registry.map Prod.fst).Nodup ∧
  (st.registry.map Prod.snd).Nodup ∧
  ∀ p ∈ st.registry, ∃ ty n, p.2 = mkTok ty n ∧ 1 ≤ n ∧ n ≤ cnt st ty

/-- Benign registry content: real values are nonempty, contain no angle
bracket, and occur in no registered token. -/
def HypVals (st : Registry) : Prop :=
  ∀ p ∈ st.registry, p.1 ≠ [] ∧ '<' ∉ p.1 ∧ '>' ∉ p.1 ∧
    ∀ q ∈ st.registry, containsSub p.1 q.2 = false

instance (st : Registry) : Decidable (HypVals st) := by
  unfold HypVals
  infer_instance

/-- Decimal value of a digit string (used to show decimal printing is
injective). -/
def digsVal (l : Str) : Nat := l.foldl (fun a c => 10 * a + (c.toNat - 48)) 0

/-- Cumulative effect of a whole restore pass on a single segment. -/
def rbAll (L : List (Str × Str)) (s : Seg) : Seg :=
  L.foldl (fun acc e => match acc with
    | Seg.lit l => Seg.lit l
    | Seg.tok t => if t = e.1 then Seg.lit e.2 else Seg.tok t) s
-- ==================== basic equations ====================

theorem splitPF_nil (sep : Str) (f : Nat) : splitPF sep f [] = [[]] := by
  cases f <;> rfl

theorem splitPF_ne_nil (sep : Str) : ∀ f s, splitPF sep f s ≠ [] := by
  intro f
  induction f with
  | zero => intro s; cases s <;> simp [splitPF]
  | succ f ih =>
    intro s
    cases s with
    | nil => simp [splitPF]
    | cons c cs =>
      simp only [splitPF]
      split
      · simp
      · cases h : splitPF sep f cs <;> simp [h]

theorem length_drop_le (n : Nat) (l : Str) : (List.drop n l).length ≤ l.length := by
  rw [List.length_drop]
  exact Nat.sub_le _ _

theorem splitPF_fuel (sep : Str) : ∀ f1 f2 s, s.length ≤ f1 → s.length ≤ f2 →
    splitPF sep f1 s = splitPF sep f2 s := by
  intro f1
  induction f1 with
  | zero =>
    intro f2 s h1 _
    have hs : s = [] := List.eq_nil_of_length_eq_zero (Nat.le_zero.mp h1)
    subst hs
    rw [splitPF_nil, splitPF_nil]
  | succ f ih =>
    intro f2 s h1 h2
    cases s with
    | nil => rw [splitPF_nil, splitPF_nil]
    | cons c cs =>
      cases f2 with
      | zero => simp at h2
      | succ f2 =>
        simp only [splitPF]
        have hc : cs.length ≤ f := by simpa using h1
        have hc2 : cs.length ≤ f2 := by simpa using h2
        have hd : (List.drop (sep.length - 1) cs).length ≤ cs.length := length_drop_le _ _
        rw [ih f2 cs hc hc2, ih f2 (List.drop (sep.length - 1) cs) (le_trans hd hc) (le_trans hd hc2)]

theorem splitPieces_nil (sep : Str) : splitPieces sep [] = [[]] := rfl

theorem splitPieces_ne_nil (sep s : Str) : splitPieces sep s ≠ [] :=
  splitPF_ne_nil sep s.length s

theorem splitPieces_pos {sep : Str} (c : Char) (cs : Str) (hsep : sep ≠ [])
    (h : leadsWith sep (c :: cs) = true) :
    splitPieces sep (c :: cs) = [] :: splitPieces sep (List.drop (sep.length - 1) cs) := by
  have hne : (leadsWith sep (c :: cs) && !(List.isEmpty sep)) = true := by
    rw [h]
    cases sep
    · exact absurd rfl hsep
    · rfl
  unfold splitPieces
  simp only [List.length_cons, splitPF, hne, if_true]
  congr 1
  exact splitPF_fuel sep cs.length (List.drop (sep.length - 1) cs).length _
    (length_drop_le _ _) (le_refl _)

theorem splitPieces_neg {sep : Str} (c : Char) (cs : Str)
    (h : leadsWith sep (c :: cs) = false) :
    splitPieces sep (c :: cs) =
      match splitPieces sep cs with
      | [] => [c :: cs]
      | p :: ps => (c :: p) :: ps := by
  have hne : (leadsWith sep (c :: cs) && !(List.isEmpty sep)) = false := by
    rw [h]
    rfl
  unfold splitPieces
  simp only [List.length_cons, splitPF, hne, Bool.false_eq_true, if_false]

theorem joinWith_single (rep p) : joinWith rep [p] = p := rfl

theorem joinWith_cons {rep : Str} {ps : List Str} (p : Str) (h : ps ≠ []) :
    joinWith rep (p :: ps) = p ++ rep ++ joinWith rep ps := by
  cases ps
  · exact absurd rfl h
  · rfl

theorem jsr_nil (sep rep : Str) : jsReplaceAll sep rep [] = [] := by
  unfold jsReplaceAll jsSplit
  split <;> rfl

theorem jsr_of_ne {sep : Str} (rep s : Str) (hsep : sep ≠ []) :
    jsReplaceAll sep rep s = joinWith rep (splitPieces sep s) := by
  unfold jsReplaceAll jsSplit
  rw [if_neg]
  simp [hsep]

theorem jsr_cons {sep : Str} (rep : Str) (c : Char) (cs : Str) (hsep : sep ≠ []) :
    jsReplaceAll sep rep (c :: cs) =
      if leadsWith sep (c :: cs) then
        rep ++ jsReplaceAll sep rep (List.drop (sep.length - 1) cs)
      else
        c :: jsReplaceAll sep rep cs := by
  rw [jsr_of_ne rep _ hsep]
  cases h : leadsWith sep (c :: cs) with
  | true =>
    rw [if_pos rfl, splitPieces_pos c cs hsep h,
      joinWith_cons [] (splitPieces_ne_nil _ _), jsr_of_ne rep _ hsep]
    simp
  | false =>
    rw [if_neg (by simp), splitPieces_neg c cs h, jsr_of_ne rep _ hsep]
    cases hp : splitPieces sep cs with
    | nil => exact absurd hp (splitPieces_ne_nil _ _)
    | cons p ps =>
      cases ps with
      | nil => rfl
      | cons q ps' =>
        rw [joinWith_cons p (by simp), joinWith_cons (c :: p) (by simp)]
        simp
-- ==================== substring theory ====================

theorem leads_iff {p s : Str} : leadsWith p s = true ↔ ∃ r, s = p ++ r := by
  induction p generalizing s with
  | nil => simp [leadsWith]
  | cons x xs ih =>
    cases s with
    | nil => simp [leadsWith]
    | cons c cs =>
      simp only [leadsWith, Bool.and_eq_true, beq_iff_eq, ih, List.cons_append]
      constructor
      · rintro ⟨hx, r, hr⟩
        exact ⟨r, by rw [← hx, hr]⟩
      · rintro ⟨r, hr⟩
        injection hr with h1 h2
        exact ⟨h1.symm, r, h2⟩

theorem leads_length {p s : Str} (h : leadsWith p s = true) : p.length ≤ s.length := by
  obtain ⟨r, rfl⟩ := leads_iff.mp h
  simp

theorem leads_self_append (u r : Str) : leadsWith u (u ++ r) = true :=
  leads_iff.mpr ⟨r, rfl⟩

theorem leads_of_append {v a : Str} (b : Str) (h : leadsWith v a = true) :
    leadsWith v (a ++ b) = true := by
  obtain ⟨r, rfl⟩ := leads_iff.mp h
  exact leads_iff.mpr ⟨r ++ b, by simp⟩

theorem leads_append_le {v a : Str} (b : Str) (hle : v.length ≤ a.length) :
    leadsWith v (a ++ b) = leadsWith v a := by
  induction v generalizing a with
  | nil => simp [leadsWith]
  | cons x xs ih =>
    cases a with
    | nil => simp at hle
    | cons c cs =>
      simp only [List.cons_append, leadsWith, List.append_eq]
      rw [ih (by simpa using hle)]

theorem leads_split {v a b : Str} (h : leadsWith v (a ++ b) = true)
    (hlt : a.length < v.length) :
    ∃ v2, v = a ++ v2 ∧ v2 ≠ [] ∧ leadsWith v2 b = true := by
  induction a generalizing v with
  | nil =>
    refine ⟨v, by simp, ?_, h⟩
    intro hv
    rw [hv] at hlt
    simp at hlt
  | cons c cs ih =>
    cases v with
    | nil => simp at hlt
    | cons x xs =>
      simp only [List.cons_append, leadsWith, Bool.and_eq_true, beq_iff_eq] at h
      obtain ⟨v2, h1, h2, h3⟩ := ih h.2 (by simpa using hlt)
      exact ⟨v2, by rw [List.cons_append, ← h1, h.1], h2, h3⟩

theorem leads_append_headc {x : Char} {v b : Str} (a : Str) (hx : x ∉ v)
    (hb : b = [] ∨ b.head? = some x) : leadsWith v (a ++ b) = leadsWith v a := by
  induction v generalizing a with
  | nil => simp [leadsWith]
  | cons p ps ih =>
    cases a with
    | nil =>
      simp only [List.nil_append]
      cases hb with
      | inl h => rw [h]
      | inr hh =>
        cases b with
        | nil => rfl
        | cons c cs =>
          have hcx : c = x := by simpa using hh
          subst hcx
          have hpx : (p == c) = false :=
            beq_eq_false_iff_ne.mpr (fun he => hx (he ▸ List.mem_cons_self p ps))
          simp [leadsWith, hpx]
    | cons c cs =>
      simp only [List.cons_append, leadsWith, List.append_eq]
      rw [ih cs (fun hm => hx (List.mem_cons_of_mem p hm))]

theorem contains_nil_pat (s : Str) : containsSub [] s = true := by
  cases s <;> simp [containsSub, leadsWith]

theorem contains_of_leads {p s : Str} (h : leadsWith p s = true) :
    containsSub p s = true := by
  cases s with
  | nil =>
    obtain ⟨r, hr⟩ := leads_iff.mp h
    have hp : p = [] := by
      cases p
      · rfl
      · simp at hr
    subst hp
    exact contains_nil_pat []
  | cons c cs => simp [containsSub, h]

theorem contains_tail {p cs : Str} (c : Char) (h : containsSub p cs = true) :
    containsSub p (c :: cs) = true := by
  simp [containsSub, h]

theorem contains_iff {p s : Str} : containsSub p s = true ↔ ∃ a b, s = a ++ p ++ b := by
  induction s with
  | nil =>
    simp only [containsSub, leads_iff]
    constructor
    · rintro ⟨r, hr⟩
      exact ⟨[], r, by simpa using hr⟩
    · rintro ⟨a, b, hab⟩
      have hp : p = [] := by
        have h2 := hab.symm
        simp only [List.append_eq_nil] at h2
        exact h2.1.2
      exact ⟨[], by simp [hp]⟩
  | cons c cs ih =>
    simp only [containsSub, Bool.or_eq_true, leads_iff, ih]
    constructor
    · rintro (⟨r, hr⟩ | ⟨a, b, hab⟩)
      · exact ⟨[], r, by simpa using hr⟩
      · exact ⟨c :: a, b, by simp [hab]⟩
    · rintro ⟨a, b, hab⟩
      cases a with
      | nil =>
        exact Or.inl ⟨b, by simpa using hab⟩
      | cons a0 as =>
        right
        have h2 : cs = as ++ p ++ b := by
          have h3 := hab
          simp only [List.cons_append] at h3
          injection h3 with _ h2
        exact ⟨as, b, h2⟩
-- ==================== contains decomposition and piece structure ====================

theorem contains_append_l {p a : Str} (b : Str) (h : containsSub p a = true) :
    containsSub p (a ++ b) = true := by
  obtain ⟨x, y, rfl⟩ := contains_iff.mp h
  exact contains_iff.mpr ⟨x, y ++ b, by simp⟩

theorem contains_append_r {p b : Str} (a : Str) (h : containsSub p b = true) :
    containsSub p (a ++ b) = true := by
  obtain ⟨x, y, rfl⟩ := contains_iff.mp h
  exact contains_iff.mpr ⟨a ++ x, y, by simp⟩

theorem contains_mem {p s : Str} (h : containsSub p s = true) :
    ∀ c ∈ p, c ∈ s := by
  obtain ⟨a, b, rfl⟩ := contains_iff.mp h
  intro c hc
  simp [hc]

theorem contains_append_split {v a b : Str} (h : containsSub v (a ++ b) = true) :
    containsSub v a = true ∨ containsSub v b = true ∨
      ∃ v1 v2, v = v1 ++ v2 ∧ v1 ≠ [] ∧ v2 ≠ [] ∧ (∃ a0, a = a0 ++ v1) ∧
        leadsWith v2 b = true := by
  induction a with
  | nil => exact Or.inr (Or.inl (by simpa using h))
  | cons c cs ih =>
    rw [List.cons_append] at h
    simp only [containsSub, Bool.or_eq_true] at h
    cases h with
    | inl hl =>
      have hl2 : leadsWith v ((c :: cs) ++ b) = true := by
        rw [List.cons_append]
        exact hl
      rcases Nat.lt_or_ge (c :: cs).length v.length with hlt | hge
      · obtain ⟨v2, hv, hv2, hlb⟩ := leads_split hl2 hlt
        exact Or.inr (Or.inr ⟨c :: cs, v2, hv, by simp, hv2, ⟨[], by simp⟩, hlb⟩)
      · rw [leads_append_le b hge] at hl2
        exact Or.inl (contains_of_leads hl2)
    | inr hr =>
      rcases ih hr with h1 | h2 | ⟨v1, v2, hv, hv1, hv2, ⟨a0, ha⟩, hlb⟩
      · exact Or.inl (contains_tail c h1)
      · exact Or.inr (Or.inl h2)
      · exact Or.inr (Or.inr ⟨v1, v2, hv, hv1, hv2, ⟨c :: a0, by simp [ha]⟩, hlb⟩)

theorem splitPieces_of_not_contains {sep s : Str} (h : containsSub sep s = false) :
    splitPieces sep s = [s] := by
  induction s with
  | nil => rfl
  | cons c cs ih =>
    simp only [containsSub, Bool.or_eq_false_iff] at h
    rw [splitPieces_neg c cs h.1, ih h.2]

theorem jsr_of_not_contains {sep s : Str} (rep : Str) (h : containsSub sep s = false) :
    jsReplaceAll sep rep s = s := by
  have hsep : sep ≠ [] := by
    intro he
    rw [he, contains_nil_pat] at h
    exact absurd h (by simp)
  rw [jsr_of_ne rep s hsep, splitPieces_of_not_contains h, joinWith_single]

theorem leads_decomp {sep : Str} {c : Char} {cs : Str} (hsep : sep ≠ [])
    (h : leadsWith sep (c :: cs) = true) :
    c :: cs = sep ++ List.drop (sep.length - 1) cs := by
  obtain ⟨r, hr⟩ := leads_iff.mp h
  have h2 : List.drop sep.length (c :: cs) = r := by
    rw [hr]
    exact List.drop_left sep r
  have h3 : List.drop (sep.length - 1) cs = r := by
    cases sep with
    | nil => exact absurd rfl hsep
    | cons s0 ss => simpa using h2
  rw [h3, hr]

theorem splitPieces_head {sep : Str} (hsep : sep ≠ []) :
    ∀ n s, s.length ≤ n → ∃ p ps b, splitPieces sep s = p :: ps ∧ s = p ++ b := by
  intro n
  induction n with
  | zero =>
    intro s hs
    have : s = [] := List.eq_nil_of_length_eq_zero (Nat.le_zero.mp hs)
    subst this
    exact ⟨[], [], [], rfl, rfl⟩
  | succ n ih =>
    intro s hs
    cases s with
    | nil => exact ⟨[], [], [], rfl, rfl⟩
    | cons c cs =>
      cases hl : leadsWith sep (c :: cs) with
      | true =>
        exact ⟨[], splitPieces sep (List.drop (sep.length - 1) cs), c :: cs,
          splitPieces_pos c cs hsep hl, rfl⟩
      | false =>
        obtain ⟨p, ps, b, hps, hb⟩ := ih cs (by simpa using hs)
        refine ⟨c :: p, ps, b, ?_, by simp [hb]⟩
        rw [splitPieces_neg c cs hl, hps]

theorem splitPieces_within {sep : Str} (hsep : sep ≠ []) :
    ∀ n s, s.length ≤ n → ∀ p ∈ splitPieces sep s, ∃ a b, s = a ++ p ++ b := by
  intro n
  induction n with
  | zero =>
    intro s hs p hp
    have : s = [] := List.eq_nil_of_length_eq_zero (Nat.le_zero.mp hs)
    subst this
    simp only [splitPieces_nil, List.mem_singleton] at hp
    exact ⟨[], [], by simp [hp]⟩
  | succ n ih =>
    intro s hs p hp
    cases s with
    | nil =>
      simp only [splitPieces_nil, List.mem_singleton] at hp
      exact ⟨[], [], by simp [hp]⟩
    | cons c cs =>
      cases hl : leadsWith sep (c :: cs) with
      | true =>
        rw [splitPieces_pos c cs hsep hl] at hp
        rcases List.mem_cons.mp hp with h1 | h2
        · exact ⟨[], c :: cs, by simp [h1]⟩
        · have hd : (List.drop (sep.length - 1) cs).length ≤ n := by
            have h1 := length_drop_le (sep.length - 1) cs
            have h2 : cs.length + 1 ≤ n + 1 := by simpa using hs
            omega
          obtain ⟨a, b, hab⟩ := ih _ hd p h2
          refine ⟨sep ++ a, b, ?_⟩
          rw [leads_decomp hsep hl, hab]
          simp
      | false =>
        rw [splitPieces_neg c cs hl] at hp
        obtain ⟨p0, ps, hps⟩ : ∃ p0 ps, splitPieces sep cs = p0 :: ps := by
          cases hq : splitPieces sep cs with
          | nil => exact absurd hq (splitPieces_ne_nil _ _)
          | cons q qs => exact ⟨q, qs, rfl⟩
        rw [hps] at hp
        simp only at hp
        rcases List.mem_cons.mp hp with h1 | h2
        · obtain ⟨q, qs, b, hq, hb⟩ := splitPieces_head hsep cs.length cs (le_refl _)
          rw [hps] at hq
          injection hq with hq1 _
          refine ⟨[], b, ?_⟩
          rw [h1]
          simp [hb, hq1]
        · obtain ⟨a, b, hab⟩ := ih cs (by simpa using hs) p (by rw [hps]; exact List.mem_cons_of_mem _ h2)
          exact ⟨c :: a, b, by simp [hab]⟩

theorem splitPieces_not_contains {sep : Str} (hsep : sep ≠ []) :
    ∀ n s, s.length ≤ n → ∀ p ∈ splitPieces sep s, containsSub sep p = false := by
  intro n
  induction n with
  | zero =>
    intro s hs p hp
    have : s = [] := List.eq_nil_of_length_eq_zero (Nat.le_zero.mp hs)
    subst this
    simp only [splitPieces_nil, List.mem_singleton] at hp
    subst hp
    cases sep with
    | nil => exact absurd rfl hsep
    | cons x xs => rfl
  | succ n ih =>
    intro s hs p hp
    cases s with
    | nil =>
      simp only [splitPieces_nil, List.mem_singleton] at hp
      subst hp
      cases sep with
      | nil => exact absurd rfl hsep
      | cons x xs => rfl
    | cons c cs =>
      cases hl : leadsWith sep (c :: cs) with
      | true =>
        rw [splitPieces_pos c cs hsep hl] at hp
        rcases List.mem_cons.mp hp with h1 | h2
        · subst h1
          cases sep with
          | nil => exact absurd rfl hsep
          | cons x xs => rfl
        · have hd : (List.drop (sep.length - 1) cs).length ≤ n := by
            have h1 := length_drop_le (sep.length - 1) cs
            have h2 : cs.length + 1 ≤ n + 1 := by simpa using hs
            omega
          exact ih _ hd p h2
      | false =>
        rw [splitPieces_neg c cs hl] at hp
        obtain ⟨p0, ps, hps⟩ : ∃ p0 ps, splitPieces sep cs = p0 :: ps := by
          cases hq : splitPieces sep cs with
          | nil => exact absurd hq (splitPieces_ne_nil _ _)
          | cons q qs => exact ⟨q, qs, rfl⟩
        rw [hps] at hp
        simp only at hp
        rcases List.mem_cons.mp hp with h1 | h2
        · subst h1
          have hp0 : containsSub sep p0 = false :=
            ih cs (by simpa using hs) p0 (by rw [hps]; exact List.mem_cons_self _ _)
          have hlp : leadsWith sep (c :: p0) = false := by
            cases hlp : leadsWith sep (c :: p0) with
            | false => rfl
            | true =>
              obtain ⟨q, qs, b, hq, hb⟩ := splitPieces_head hsep cs.length cs (le_refl _)
              rw [hps] at hq
              injection hq with hq1 _
              have : leadsWith sep ((c :: p0) ++ b) = true := leads_of_append b hlp
              rw [show (c :: p0) ++ b = c :: cs by simp [hb, hq1]] at this
              rw [this] at hl
              exact absurd hl (by simp)
          simp [containsSub, hlp, hp0]
        · exact ih cs (by simpa using hs) p (by rw [hps]; exact List.mem_cons_of_mem _ h2)

theorem joinWith_splitPieces {sep : Str} (hsep : sep ≠ []) :
    ∀ n s, s.length ≤ n → joinWith sep (splitPieces sep s) = s := by
  intro n
  induction n with
  | zero =>
    intro s hs
    have : s = [] := List.eq_nil_of_length_eq_zero (Nat.le_zero.mp hs)
    subst this
    rfl
  | succ n ih =>
    intro s hs
    cases s with
    | nil => rfl
    | cons c cs =>
      cases hl : leadsWith sep (c :: cs) with
      | true =>
        rw [splitPieces_pos c cs hsep hl,
          joinWith_cons [] (splitPieces_ne_nil _ _), List.nil_append]
        have hd : (List.drop (sep.length - 1) cs).length ≤ n := by
          have h1 := length_drop_le (sep.length - 1) cs
          have h2 : cs.length + 1 ≤ n + 1 := by simpa using hs
          omega
        rw [ih _ hd]
        exact (leads_decomp hsep hl).symm
      | false =>
        rw [splitPieces_neg c cs hl]
        obtain ⟨p0, ps, hps⟩ : ∃ p0 ps, splitPieces sep cs = p0 :: ps := by
          cases hq : splitPieces sep cs with
          | nil => exact absurd hq (splitPieces_ne_nil _ _)
          | cons q qs => exact ⟨q, qs, rfl⟩
        rw [hps]
        have hj : joinWith sep (p0 :: ps) = cs := by
          rw [← hps]
          exact ih cs (by simpa using hs)
        cases ps with
        | nil =>
          rw [joinWith_single]
          rw [joinWith_single] at hj
          rw [hj]
        | cons q qs =>
          rw [joinWith_cons (c :: p0) (by simp), List.cons_append, List.cons_append]
          rw [joinWith_cons p0 (by simp)] at hj
          simp only [List.append_assoc] at hj ⊢
          rw [hj]
-- ==================== replacement distribution over safe boundaries ====================

theorem jsr_append_headc {x : Char} {v : Str} (t b : Str) (hv : v ≠ []) (hx : x ∉ v)
    (hb : b = [] ∨ b.head? = some x) :
    ∀ n a, a.length ≤ n →
      jsReplaceAll v t (a ++ b) = jsReplaceAll v t a ++ jsReplaceAll v t b := by
  intro n
  induction n with
  | zero =>
    intro a ha
    have : a = [] := List.eq_nil_of_length_eq_zero (Nat.le_zero.mp ha)
    subst this
    rw [jsr_nil, List.nil_append, List.nil_append]
  | succ n ih =>
    intro a ha
    cases a with
    | nil => rw [jsr_nil, List.nil_append, List.nil_append]
    | cons c cs =>
      have key : leadsWith v (c :: (cs ++ b)) = leadsWith v (c :: cs) := by
        rw [← List.cons_append]
        exact leads_append_headc (c :: cs) hx hb
      rw [List.cons_append, jsr_cons t c (cs ++ b) hv, jsr_cons t c cs hv, key]
      cases hl : leadsWith v (c :: cs) with
      | true =>
        rw [if_pos rfl, if_pos rfl]
        have hle : v.length - 1 ≤ cs.length := by
          have := leads_length hl
          simp only [List.length_cons] at this
          omega
        rw [List.drop_append_of_le_length hle,
          ih (List.drop (v.length - 1) cs) (le_trans (length_drop_le _ _) (by simpa using ha))]
        simp
      | false =>
        rw [if_neg (by simp), if_neg (by simp)]
        rw [ih cs (by simpa using ha)]
        simp

theorem jsr_append_lastc {x : Char} {v : Str} (t b : Str) (hv : v ≠ []) (hx : x ∉ v) :
    ∀ n a0, a0.length ≤ n →
      jsReplaceAll v t ((a0 ++ [x]) ++ b) =
        jsReplaceAll v t (a0 ++ [x]) ++ jsReplaceAll v t b := by
  intro n
  induction n with
  | zero =>
    intro a0 ha
    have : a0 = [] := List.eq_nil_of_length_eq_zero (Nat.le_zero.mp ha)
    subst this
    simp only [List.nil_append, List.singleton_append]
    have hlx : ∀ r : Str, leadsWith v (x :: r) = false := by
      intro r
      cases hvv : leadsWith v (x :: r) with
      | false => rfl
      | true =>
        cases v with
        | nil => exact absurd rfl hv
        | cons v0 vs =>
          simp only [leadsWith, Bool.and_eq_true, beq_iff_eq] at hvv
          exact absurd (hvv.1 ▸ List.mem_cons_self v0 vs) (hvv.1 ▸ hx)
    rw [jsr_cons t x b hv, hlx b, if_neg (by simp),
      jsr_cons t x [] hv, hlx [], if_neg (by simp), jsr_nil]
    rfl
  | succ n ih =>
    intro a0 ha
    cases a0 with
    | nil =>
      simp only [List.nil_append, List.singleton_append]
      have hlx : ∀ r : Str, leadsWith v (x :: r) = false := by
        intro r
        cases hvv : leadsWith v (x :: r) with
        | false => rfl
        | true =>
          cases v with
          | nil => exact absurd rfl hv
          | cons v0 vs =>
            simp only [leadsWith, Bool.and_eq_true, beq_iff_eq] at hvv
            exact absurd (hvv.1 ▸ List.mem_cons_self v0 vs) (hvv.1 ▸ hx)
      rw [jsr_cons t x b hv, hlx b, if_neg (by simp),
        jsr_cons t x [] hv, hlx [], if_neg (by simp), jsr_nil]
      rfl
    | cons c a0 =>
      have hxcs : x ∈ c :: (a0 ++ [x]) := by simp
      have hlen : (c :: (a0 ++ [x])).length = a0.length + 2 := by simp
      rw [List.cons_append, List.cons_append, jsr_cons t c ((a0 ++ [x]) ++ b) hv,
        jsr_cons t c (a0 ++ [x]) hv]
      have hnb : leadsWith v (c :: ((a0 ++ [x]) ++ b)) = leadsWith v (c :: (a0 ++ [x])) := by
        cases hl2 : leadsWith v (c :: (a0 ++ [x])) with
        | true =>
          have h3 : leadsWith v (c :: ((a0 ++ [x]) ++ b)) = true := by
            have h4 := leads_of_append b hl2
            rw [List.cons_append] at h4
            exact h4
          rw [h3]
        | false =>
          cases hl1 : leadsWith v (c :: ((a0 ++ [x]) ++ b)) with
          | false => rfl
          | true =>
            by_cases hvl : v.length ≤ (c :: (a0 ++ [x])).length
            · have h2 : leadsWith v ((c :: (a0 ++ [x])) ++ b) = true := by
                rw [List.cons_append]
                exact hl1
              rw [leads_append_le b hvl] at h2
              rw [h2] at hl2
              exact absurd hl2 (by simp)
            · have h2 : leadsWith v ((c :: (a0 ++ [x])) ++ b) = true := by
                rw [List.cons_append]
                exact hl1
              obtain ⟨v2, hveq, _, _⟩ := leads_split h2 (by omega)
              exact absurd (hveq ▸ (List.mem_append.mpr (Or.inl hxcs))) hx
      rw [hnb]
      cases hl : leadsWith v (c :: (a0 ++ [x])) with
      | true =>
        rw [if_pos rfl, if_pos rfl]
        have hlt : v.length < (c :: (a0 ++ [x])).length := by
          rcases Nat.lt_or_ge v.length (c :: (a0 ++ [x])).length with h | h
          · exact h
          · exfalso
            have heq : v.length = (c :: (a0 ++ [x])).length :=
              Nat.le_antisymm (leads_length hl) h
            obtain ⟨r, hr⟩ := leads_iff.mp hl
            have h6 : r.length = 0 := by
              have h5 := congrArg List.length hr
              rw [List.length_append] at h5
              omega
            have hrn : r = [] := List.eq_nil_of_length_eq_zero h6
            rw [hrn, List.append_nil] at hr
            exact hx (hr ▸ hxcs)
        have hm : v.length - 1 ≤ a0.length := by
          rw [hlen] at hlt
          omega
        have hdrop : List.drop (v.length - 1) (a0 ++ [x]) =
            List.drop (v.length - 1) a0 ++ [x] :=
          List.drop_append_of_le_length hm
        rw [List.drop_append_of_le_length (by simp; omega), hdrop]
        rw [ih (List.drop (v.length - 1) a0)
          (le_trans (length_drop_le _ _) (by simpa using ha))]
        simp
      | false =>
        rw [if_neg (by simp), if_neg (by simp)]
        rw [ih a0 (by simpa using ha)]
        simp
-- ==================== segment lemmas ====================

theorem flatS_append (a b : List Seg) : flatS (a ++ b) = flatS a ++ flatS b := by
  induction a with
  | nil => rfl
  | cons s r ih => simp [flatS, ih]

theorem flatS_segsOfPieces (t : Str) : ∀ ps, flatS (segsOfPieces t ps) = joinWith t ps := by
  intro ps
  induction ps with
  | nil => rfl
  | cons p qs ih =>
    cases qs with
    | nil => simp [segsOfPieces, flatS, Seg.flat1, joinWith]
    | cons q ps' =>
      rw [joinWith_cons p (by simp)]
      simp only [segsOfPieces, flatS, Seg.flat1]
      rw [ih]
      simp

theorem noAdjLit_tail {s : Seg} {r : List Seg} (h : noAdjLit (s :: r)) : noAdjLit r := by
  cases s with
  | lit l =>
    cases r with
    | nil => trivial
    | cons s2 r2 =>
      cases s2 with
      | lit l2 => exact absurd h (by simp [noAdjLit])
      | tok u => exact h
  | tok u => exact h

theorem segsOfPieces_mem_tok {t u : Str} : ∀ ps, Seg.tok u ∈ segsOfPieces t ps → u = t := by
  intro ps
  induction ps with
  | nil => intro h; simp [segsOfPieces] at h
  | cons p qs ih =>
    cases qs with
    | nil =>
      intro h
      simp [segsOfPieces] at h
    | cons q ps' =>
      intro h
      have h0 : Seg.tok u ∈ Seg.lit p :: Seg.tok t :: segsOfPieces t (q :: ps') := h
      rcases List.mem_cons.mp h0 with h1 | h0b
      · exact Seg.noConfusion h1
      rcases List.mem_cons.mp h0b with h2 | h3
      · injection h2 with h2
      · exact ih h3

theorem segsOfPieces_mem_lit {t : Str} : ∀ ps l, Seg.lit l ∈ segsOfPieces t ps → l ∈ ps := by
  intro ps
  induction ps with
  | nil => intro l h; simp [segsOfPieces] at h
  | cons p qs ih =>
    cases qs with
    | nil =>
      intro l h
      simp only [segsOfPieces, List.mem_singleton] at h
      injection h with h
      simp [h]
    | cons q ps' =>
      intro l h
      have h0 : Seg.lit l ∈ Seg.lit p :: Seg.tok t :: segsOfPieces t (q :: ps') := h
      rcases List.mem_cons.mp h0 with h1 | h0b
      · injection h1 with h1
        simp [h1]
      rcases List.mem_cons.mp h0b with h2 | h3
      · exact Seg.noConfusion h2
      · exact List.mem_cons_of_mem _ (ih l h3)

theorem stepSegs_mem_tok {v t u : Str} :
    ∀ segs, Seg.tok u ∈ stepSegs v t segs → u = t ∨ Seg.tok u ∈ segs := by
  intro segs
  induction segs with
  | nil => intro h; simp [stepSegs] at h
  | cons s r ih =>
    cases s with
    | lit l =>
      intro h
      have h0 : Seg.tok u ∈ segsOfPieces t (splitPieces v l) ++ stepSegs v t r := h
      rcases List.mem_append.mp h0 with h1 | h2
      · exact Or.inl (segsOfPieces_mem_tok _ h1)
      · rcases ih h2 with h3 | h4
        · exact Or.inl h3
        · exact Or.inr (List.mem_cons_of_mem _ h4)
    | tok w =>
      intro h
      have h0 : Seg.tok u ∈ Seg.tok w :: stepSegs v t r := h
      rcases List.mem_cons.mp h0 with h1 | h2
      · injection h1 with h1
        exact Or.inr (by simp [h1])
      · rcases ih h2 with h3 | h4
        · exact Or.inl h3
        · exact Or.inr (List.mem_cons_of_mem _ h4)

theorem stepSegs_mem_lit {v t l : Str} :
    ∀ segs, Seg.lit l ∈ stepSegs v t segs →
      ∃ l0, Seg.lit l0 ∈ segs ∧ l ∈ splitPieces v l0 := by
  intro segs
  induction segs with
  | nil => intro h; simp [stepSegs] at h
  | cons s r ih =>
    cases s with
    | lit l0 =>
      intro h
      have h0 : Seg.lit l ∈ segsOfPieces t (splitPieces v l0) ++ stepSegs v t r := h
      rcases List.mem_append.mp h0 with h1 | h2
      · exact ⟨l0, by simp, segsOfPieces_mem_lit _ l h1⟩
      · obtain ⟨l1, hm, hp⟩ := ih h2
        exact ⟨l1, List.mem_cons_of_mem _ hm, hp⟩
    | tok w =>
      intro h
      have h0 : Seg.lit l ∈ Seg.tok w :: stepSegs v t r := h
      rcases List.mem_cons.mp h0 with h1 | h2
      · exact Seg.noConfusion h1
      · obtain ⟨l1, hm, hp⟩ := ih h2
        exact ⟨l1, List.mem_cons_of_mem _ hm, hp⟩

theorem step_flat {v t : Str} (hv : v ≠ []) (hlt : '<' ∉ v) (hgt : '>' ∉ v) :
    ∀ segs, (∀ u, Seg.tok u ∈ segs → GoodTok u ∧ containsSub v u = false) →
      noAdjLit segs →
      jsReplaceAll v t (flatS segs) = flatS (stepSegs v t segs) := by
  intro segs
  induction segs with
  | nil =>
    intro _ _
    show jsReplaceAll v t [] = flatS []
    rw [jsr_nil]
    rfl
  | cons s r ih =>
    intro htok hadj
    cases s with
    | lit l =>
      have hhead : flatS r = [] ∨ (flatS r).head? = some '<' := by
        cases r with
        | nil => exact Or.inl rfl
        | cons s2 r2 =>
          cases s2 with
          | lit l2 => exact absurd hadj (by simp [noAdjLit])
          | tok u =>
            obtain ⟨i, hi⟩ := (htok u (by simp)).1
            right
            show (flatS (Seg.tok u :: r2)).head? = some '<'
            rw [show flatS (Seg.tok u :: r2) = u ++ flatS r2 from rfl, hi]
            rfl
      show jsReplaceAll v t (l ++ flatS r) = flatS (stepSegs v t (Seg.lit l :: r))
      rw [jsr_append_headc t (flatS r) hv hlt hhead l.length l (le_refl _)]
      rw [ih (fun u hu => htok u (List.mem_cons_of_mem _ hu)) (noAdjLit_tail hadj)]
      show _ = flatS (segsOfPieces t (splitPieces v l) ++ stepSegs v t r)
      rw [flatS_append, flatS_segsOfPieces, jsr_of_ne t l hv]
    | tok u =>
      obtain ⟨⟨i, hi⟩, hnc⟩ := htok u (by simp)
      show jsReplaceAll v t (u ++ flatS r) = flatS (Seg.tok u :: stepSegs v t r)
      have hu2 : u = ('<' :: i) ++ ['>'] := by simp [hi]
      rw [hu2, jsr_append_lastc t (flatS r) hv hgt ('<' :: i).length ('<' :: i) (le_refl _)]
      rw [← hu2, jsr_of_not_contains t hnc,
        ih (fun w hw => htok w (List.mem_cons_of_mem _ hw)) (noAdjLit_tail hadj)]
      rfl
-- ==================== invariant preservation and fold ====================

theorem noAdjLit_soP_append (t : Str) :
    ∀ ps R, (R = [] ∨ ∃ u r', R = Seg.tok u :: r') → noAdjLit R →
      noAdjLit (segsOfPieces t ps ++ R) := by
  intro ps
  induction ps with
  | nil => intro R _ hR2; simpa [segsOfPieces] using hR2
  | cons p qs ih =>
    cases qs with
    | nil =>
      intro R hR hR2
      rcases hR with h | ⟨u, r', rfl⟩
      · subst h
        simp [segsOfPieces, noAdjLit]
      · show noAdjLit (Seg.lit p :: Seg.tok u :: r')
        simpa [noAdjLit] using hR2
    | cons q ps' =>
      intro R hR hR2
      show noAdjLit (Seg.lit p :: Seg.tok t :: (segsOfPieces t (q :: ps') ++ R))
      have := ih R hR hR2
      simpa [noAdjLit] using this

theorem noAdjLit_stepSegs (v t : Str) :
    ∀ segs, noAdjLit segs → noAdjLit (stepSegs v t segs) := by
  intro segs
  induction segs with
  | nil => intro _; trivial
  | cons s r ih =>
    intro hadj
    cases s with
    | lit l =>
      show noAdjLit (segsOfPieces t (splitPieces v l) ++ stepSegs v t r)
      apply noAdjLit_soP_append
      · cases r with
        | nil => exact Or.inl rfl
        | cons s2 r2 =>
          cases s2 with
          | lit l2 => simp [noAdjLit] at hadj
          | tok u => exact Or.inr ⟨u, stepSegs v t r2, rfl⟩
      · exact ih (noAdjLit_tail hadj)
    | tok u =>
      show noAdjLit (Seg.tok u :: stepSegs v t r)
      have := ih (noAdjLit_tail hadj)
      simpa [noAdjLit] using this

theorem stepSegs_litsOK {P : Str → Prop} {vals : List Str} {v : Str} (t : Str) (hv : v ≠ [])
    (hP : ∀ l p, P l → p ∈ splitPieces v l → P p) :
    ∀ segs, LitsOK P vals segs → LitsOK P (vals ++ [v]) (stepSegs v t segs) := by
  intro segs h l hl
  obtain ⟨l0, hm, hp⟩ := stepSegs_mem_lit segs hl
  obtain ⟨hPl0, hfree⟩ := h l0 hm
  refine ⟨hP l0 l hPl0 hp, ?_⟩
  intro w hw
  rcases List.mem_append.mp hw with h1 | h2
  · obtain ⟨a, b, hab⟩ := splitPieces_within hv l0.length l0 (le_refl _) l hp
    cases hc : containsSub w l with
    | false => rfl
    | true =>
      exfalso
      have hl0 : containsSub w l0 = true := by
        rw [hab, List.append_assoc]
        exact contains_append_r a (contains_append_l b hc)
      rw [hfree w h1] at hl0
      exact absurd hl0 (by simp)
  · have hw2 : w = v := by simpa using h2
    subst hw2
    exact splitPieces_not_contains hv l0.length l0 (le_refl _) l hp

theorem stepSegs_toksOK {toks : List Str} (v : Str) {t : Str} (ht : t ∈ toks) :
    ∀ segs, ToksOK toks segs → ToksOK toks (stepSegs v t segs) := by
  intro segs h u hu
  rcases stepSegs_mem_tok segs hu with h1 | h2
  · exact h1 ▸ ht
  · exact h u h2

theorem fold_repl {toks : List Str} {P : Str → Prop}
    (hgood : ∀ u ∈ toks, GoodTok u)
    (hP : ∀ v l p, v ≠ [] → P l → p ∈ splitPieces v l → P p) :
    ∀ (L : List (Str × Str)) (segs : List Seg) (vals : List Str),
      (∀ e ∈ L, e.1 ≠ [] ∧ '<' ∉ e.1 ∧ '>' ∉ e.1 ∧ e.2 ∈ toks ∧
        ∀ u ∈ toks, containsSub e.1 u = false) →
      LitsOK P vals segs → ToksOK toks segs → noAdjLit segs →
      (L.foldl (fun r e => jsReplaceAll e.1 e.2 r) (flatS segs) = flatS (stepAll L segs) ∧
       LitsOK P (vals ++ L.map Prod.fst) (stepAll L segs) ∧
       ToksOK toks (stepAll L segs) ∧ noAdjLit (stepAll L segs)) := by
  intro L
  induction L with
  | nil =>
    intro segs vals _ h1 h2 h3
    exact ⟨rfl, by simpa using h1, h2, h3⟩
  | cons e L ih =>
    intro segs vals hL h1 h2 h3
    obtain ⟨hv, hlt, hgt, htk, hnc⟩ := hL e (by simp)
    have hstep : jsReplaceAll e.1 e.2 (flatS segs) = flatS (stepSegs e.1 e.2 segs) :=
      step_flat hv hlt hgt segs (fun u hu => ⟨hgood u (h2 u hu), hnc u (h2 u hu)⟩) h3
    have h1' := stepSegs_litsOK e.2 hv (fun l p hl hp => hP e.1 l p hv hl hp) segs h1
    have h2' := stepSegs_toksOK e.1 htk segs h2
    have h3' := noAdjLit_stepSegs e.1 e.2 segs h3
    obtain ⟨ha, hb, hc, hd⟩ := ih (stepSegs e.1 e.2 segs) (vals ++ [e.1])
      (fun e' he' => hL e' (List.mem_cons_of_mem _ he')) h1' h2' h3'
    refine ⟨?_, ?_, hc, hd⟩
    · rw [List.foldl_cons, hstep]
      exact ha
    · have heq : (vals ++ [e.1]) ++ L.map Prod.fst = vals ++ (e :: L).map Prod.fst := by
        simp
      rw [← heq]
      exact hb

theorem segs_no_contains {v : Str} (hv : v ≠ []) (hlt : '<' ∉ v) (hgt : '>' ∉ v) :
    ∀ segs, (∀ u, Seg.tok u ∈ segs → GoodTok u ∧ containsSub v u = false) →
      (∀ l, Seg.lit l ∈ segs → containsSub v l = false) →
      noAdjLit segs → containsSub v (flatS segs) = false := by
  intro segs
  induction segs with
  | nil =>
    intro _ _ _
    show containsSub v [] = false
    cases v with
    | nil => exact absurd rfl hv
    | cons c cs => rfl
  | cons s r ih =>
    intro htok hlit hadj
    show containsSub v (s.flat1 ++ flatS r) = false
    cases hc : containsSub v (s.flat1 ++ flatS r) with
    | false => rfl
    | true =>
      exfalso
      rcases contains_append_split hc with h1 | h2 | ⟨v1, v2, hveq, hv1, hv2, ⟨a0, ha0⟩, hlb⟩
      · cases s with
        | lit l =>
          simp only [Seg.flat1] at h1
          rw [hlit l (by simp)] at h1
          exact absurd h1 (by simp)
        | tok u =>
          simp only [Seg.flat1] at h1
          rw [(htok u (by simp)).2] at h1
          exact absurd h1 (by simp)
      · rw [ih (fun u hu => htok u (List.mem_cons_of_mem _ hu))
          (fun l hl => hlit l (List.mem_cons_of_mem _ hl)) (noAdjLit_tail hadj)] at h2
        exact absurd h2 (by simp)
      · cases s with
        | tok u =>
          obtain ⟨i, hi⟩ := (htok u (by simp)).1
          simp only [Seg.flat1] at ha0
          rcases List.eq_nil_or_concat v1 with h | ⟨v1', y, hy⟩
          · exact hv1 h
          · have hy2 : v1 = v1' ++ [y] := by simpa [List.concat_eq_append] using hy
            have hu2 : (a0 ++ v1') ++ [y] = ('<' :: i) ++ ['>'] := by
              rw [List.append_assoc, ← hy2, ← ha0, hi]
            have hlast := congrArg List.getLast? hu2
            rw [List.getLast?_concat, List.getLast?_concat] at hlast
            have hyv : y = '>' := Option.some.inj hlast
            have : '>' ∈ v := by
              rw [hveq]
              exact List.mem_append.mpr (Or.inl (hy2 ▸ List.mem_append.mpr (Or.inr (by simp [hyv]))))
            exact hgt this
        | lit l =>
          cases r with
          | nil =>
            obtain ⟨r', hr'⟩ := leads_iff.mp hlb
            have hvnil : v2 = [] := by
              cases v2 with
              | nil => rfl
              | cons c2 cs2 => simp [flatS] at hr'
            exact hv2 hvnil
          | cons s2 r2 =>
            cases s2 with
            | lit l2 => simp [noAdjLit] at hadj
            | tok u =>
              obtain ⟨i, hi⟩ := (htok u (by simp)).1
              cases v2 with
              | nil => exact hv2 rfl
              | cons c2 cs2 =>
                have hfl : flatS (Seg.tok u :: r2) = '<' :: (i ++ ['>'] ++ flatS r2) := by
                  show u ++ flatS r2 = _
                  rw [hi]
                  simp
                rw [hfl] at hlb
                simp only [leadsWith, Bool.and_eq_true, beq_iff_eq] at hlb
                have : '<' ∈ v := by
                  rw [hveq, hlb.1]
                  exact List.mem_append.mpr (Or.inr (by simp))
                exact hlt this
-- ==================== map lemmas ====================

theorem mapGet_mapSet_self {α : Type} (m : List (Str × α)) (k : Str) (v : α) :
    mapGet (mapSet m k v) k = some v := by
  induction m with
  | nil => simp [mapSet, mapGet]
  | cons e r ih =>
    obtain ⟨k0, v0⟩ := e
    by_cases h : k0 = k
    · simp [mapSet, mapGet, h]
    · simp [mapSet, mapGet, h, ih]

theorem mapGet_mapSet_ne {α : Type} (m : List (Str × α)) {k k' : Str} (v : α)
    (h : k ≠ k') : mapGet (mapSet m k v) k' = mapGet m k' := by
  induction m with
  | nil => simp [mapSet, mapGet, h]
  | cons e r ih =>
    obtain ⟨k0, v0⟩ := e
    by_cases h0 : k0 = k
    · subst h0
      simp [mapSet, mapGet, h]
    · simp [mapSet, mapGet, h0, ih]

theorem mapGet_none_iff {α : Type} (m : List (Str × α)) (k : Str) :
    mapGet m k = none ↔ k ∉ m.map Prod.fst := by
  induction m with
  | nil => simp [mapGet]
  | cons e r ih =>
    obtain ⟨k0, v0⟩ := e
    by_cases h : k0 = k
    · subst h
      simp only [mapGet, if_pos rfl, List.map_cons, List.mem_cons]
      constructor
      · intro hh
        exact Option.noConfusion hh
      · intro hh
        exact absurd (Or.inl trivial) hh
    · simp only [mapGet, if_neg h, List.map_cons, List.mem_cons, ih]
      constructor
      · intro hh hk
        rcases hk with h1 | h2
        · exact h h1.symm
        · exact hh h2
      · intro hh
        exact fun h2 => hh (Or.inr h2)

theorem mapSet_of_none {α : Type} {m : List (Str × α)} {k : Str} (v : α)
    (h : mapGet m k = none) : mapSet m k v = m ++ [(k, v)] := by
  induction m with
  | nil => rfl
  | cons e r ih =>
    obtain ⟨k0, v0⟩ := e
    simp only [mapGet] at h
    by_cases h0 : k0 = k
    · rw [if_pos h0] at h
      exact Option.noConfusion h
    · rw [if_neg h0] at h
      simp [mapSet, h0, ih h]

theorem mapGet_mem {α : Type} {m : List (Str × α)} {k : Str} {v : α}
    (h : mapGet m k = some v) : (k, v) ∈ m := by
  induction m with
  | nil => simp [mapGet] at h
  | cons e r ih =>
    obtain ⟨k0, v0⟩ := e
    simp only [mapGet] at h
    by_cases h0 : k0 = k
    · rw [if_pos h0] at h
      subst h0
      injection h with h
      simp [h]
    · rw [if_neg h0] at h
      exact List.mem_cons_of_mem _ (ih h)

theorem mem_mapGet {α : Type} {m : List (Str × α)} {k : Str} {v : α}
    (hnd : (m.map Prod.fst).Nodup) (h : (k, v) ∈ m) : mapGet m k = some v := by
  induction m with
  | nil => simp at h
  | cons e r ih =>
    obtain ⟨k0, v0⟩ := e
    simp only [List.map_cons, List.nodup_cons] at hnd
    rcases List.mem_cons.mp h with h1 | h2
    · injection h1 with ha hb
      simp [mapGet, ha, hb]
    · have hne : k0 ≠ k := by
        intro he
        subst he
        exact hnd.1 (List.mem_map.mpr ⟨(k0, v), h2, rfl⟩)
      simp [mapGet, hne, ih hnd.2 h2]

theorem mapGet_append_none {α : Type} {m : List (Str × α)} (m2 : List (Str × α))
    {k : Str} (h : mapGet m k = none) : mapGet (m ++ m2) k = mapGet m2 k := by
  induction m with
  | nil => rfl
  | cons e r ih =>
    obtain ⟨k0, v0⟩ := e
    simp only [mapGet] at h
    by_cases h0 : k0 = k
    · rw [if_pos h0] at h
      exact Option.noConfusion h
    · rw [if_neg h0] at h
      simp [mapGet, h0, ih h]

theorem mapGet_append_some {α : Type} {m : List (Str × α)} (m2 : List (Str × α))
    {k : Str} {v : α} (h : mapGet m k = some v) : mapGet (m ++ m2) k = some v := by
  induction m with
  | nil => simp [mapGet] at h
  | cons e r ih =>
    obtain ⟨k0, v0⟩ := e
    simp only [mapGet] at h
    by_cases h0 : k0 = k
    · rw [if_pos h0] at h
      simp [mapGet, h0, h]
    · rw [if_neg h0] at h
      simp [mapGet, h0, ih h]

-- ==================== sort lemmas ====================

theorem mem_insDesc {x a : Str × Str} : ∀ l, a ∈ insDesc x l ↔ a = x ∨ a ∈ l := by
  intro l
  induction l with
  | nil => simp [insDesc]
  | cons y ys ih =>
    simp only [insDesc]
    split
    · rw [List.mem_cons, ih, List.mem_cons]
      tauto
    · rw [List.mem_cons]

theorem insDesc_perm (x : Str × Str) : ∀ l, (insDesc x l).Perm (x :: l) := by
  intro l
  induction l with
  | nil => simp [insDesc]
  | cons y ys ih =>
    simp only [insDesc]
    split
    · exact (ih.cons y).trans (List.Perm.swap x y ys)
    · exact List.Perm.refl _

theorem sortDesc_perm (l : List (Str × Str)) : (sortDesc l).Perm l := by
  have key : ∀ (l acc : List (Str × Str)),
      (l.foldl (fun ac x => insDesc x ac) acc).Perm (acc ++ l) := by
    intro l
    induction l with
    | nil => intro acc; simp
    | cons a l ih =>
      intro acc
      rw [List.foldl_cons]
      refine (ih (insDesc a acc)).trans ?_
      have h1 : (insDesc a acc ++ l).Perm ((a :: acc) ++ l) :=
        (insDesc_perm a acc).append_right l
      refine h1.trans ?_
      rw [List.cons_append]
      exact List.perm_middle.symm
  simpa using key l []

theorem mem_sortDesc {a : Str × Str} {l : List (Str × Str)} :
    a ∈ sortDesc l ↔ a ∈ l :=
  (sortDesc_perm l).mem_iff

-- ==================== digit lemmas ====================

theorem natDigitsF_fuel : ∀ f1 f2 n, n ≤ f1 → n ≤ f2 → natDigitsF f1 n = natDigitsF f2 n := by
  intro f1
  induction f1 with
  | zero =>
    intro f2 n h1 _
    have : n = 0 := Nat.le_zero.mp h1
    subst this
    cases f2 <;> rfl
  | succ f ih =>
    intro f2 n h1 h2
    cases n with
    | zero => cases f2 <;> rfl
    | succ m =>
      cases f2 with
      | zero => exact absurd h2 (by omega)
      | succ f2 =>
        show natDigitsF f ((m + 1) / 10) ++ _ = natDigitsF f2 ((m + 1) / 10) ++ _
        have hq : (m + 1) / 10 ≤ m := by
          have := Nat.div_le_self (m + 1) 10
          rcases Nat.lt_or_ge (m + 1) 10 with h | h
          · rw [Nat.div_eq_of_lt h]
            omega
          · have := Nat.div_lt_self (by omega : 0 < m + 1) (by omega : 1 < 10)
            omega
        rw [ih f2 ((m + 1) / 10) (by omega) (by omega)]

theorem natDigits_ne_nil (n : Nat) : natDigits n ≠ [] := by
  cases n with
  | zero => simp [natDigits]
  | succ m =>
    show natDigitsF (m + 1) (m + 1) ≠ []
    simp [natDigitsF]

theorem digitChar_toNat {d : Nat} (h : d < 10) : (digitChar d).toNat = 48 + d := by
  interval_cases d <;> rfl

theorem natDigitsF_digits : ∀ f n, n ≤ f → ∀ c ∈ natDigitsF f n,
    48 ≤ c.toNat ∧ c.toNat ≤ 57 := by
  intro f
  induction f with
  | zero =>
    intro n h1 c hc
    have : n = 0 := Nat.le_zero.mp h1
    subst this
    simp [natDigitsF] at hc
  | succ f ih =>
    intro n h1 c hc
    cases n with
    | zero => simp [natDigitsF] at hc
    | succ m =>
      simp only [natDigitsF, List.mem_append, List.mem_singleton] at hc
      rcases hc with h2 | h3
      · have hq : (m + 1) / 10 ≤ f := by
          have := Nat.div_lt_self (by omega : 0 < m + 1) (by omega : 1 < 10)
          omega
        exact ih _ hq c h2
      · subst h3
        have hr : (m + 1) % 10 < 10 := Nat.mod_lt _ (by omega)
        rw [digitChar_toNat hr]
        omega

theorem natDigits_digits {n : Nat} : ∀ c ∈ natDigits n, 48 ≤ c.toNat ∧ c.toNat ≤ 57 := by
  intro c hc
  cases n with
  | zero =>
    have h0 : natDigits 0 = ['0'] := rfl
    rw [h0] at hc
    simp only [List.mem_singleton] at hc
    subst hc
    exact ⟨by decide, by decide⟩
  | succ m =>
    exact natDigitsF_digits (m + 1) (m + 1) (le_refl _) c hc

theorem natDigits_no_underscore {n : Nat} : '_' ∉ natDigits n := by
  intro h
  exact absurd (natDigits_digits '_' h) (by decide)

theorem natDigits_no_lt {n : Nat} : '<' ∉ natDigits n := by
  intro h
  exact absurd (natDigits_digits '<' h) (by decide)

theorem natDigits_no_gt {n : Nat} : '>' ∉ natDigits n := by
  intro h
  exact absurd (natDigits_digits '>' h) (by decide)

theorem natDigitsF_val : ∀ f n, n ≤ f → ∀ a : Nat,
    List.foldl (fun a c => 10 * a + (c.toNat - 48)) a (natDigitsF f n) =
      a * 10 ^ (natDigitsF f n).length + n := by
  intro f
  induction f with
  | zero =>
    intro n h1 a
    have : n = 0 := Nat.le_zero.mp h1
    subst this
    simp [natDigitsF]
  | succ f ih =>
    intro n h1 a
    cases n with
    | zero => simp [natDigitsF]
    | succ m =>
      show List.foldl _ a (natDigitsF f ((m + 1) / 10) ++ [digitChar ((m + 1) % 10)]) = _
      rw [List.foldl_append]
      have hq : (m + 1) / 10 ≤ f := by
        have := Nat.div_lt_self (by omega : 0 < m + 1) (by omega : 1 < 10)
        omega
      rw [ih _ hq a]
      simp only [List.foldl_cons, List.foldl_nil]
      have hr : (m + 1) % 10 < 10 := Nat.mod_lt _ (by omega)
      rw [digitChar_toNat hr]
      have hlen : (natDigitsF (f + 1) (m + 1)).length =
          (natDigitsF f ((m + 1) / 10)).length + 1 := by
        show (natDigitsF f ((m + 1) / 10) ++ [digitChar ((m + 1) % 10)]).length = _
        simp
      rw [hlen]
      have hmod := Nat.div_add_mod (m + 1) 10
      ring_nf
      omega

theorem natDigits_val (n : Nat) : digsVal (natDigits n) = n := by
  cases n with
  | zero => rfl
  | succ m =>
    show List.foldl _ 0 (natDigitsF (m + 1) (m + 1)) = m + 1
    rw [natDigitsF_val (m + 1) (m + 1) (le_refl _) 0]
    simp

theorem natDigits_inj {m n : Nat} (h : natDigits m = natDigits n) : m = n := by
  have := congrArg digsVal h
  rwa [natDigits_val, natDigits_val] at this
-- ==================== token injectivity ====================

theorem underscore_split : ∀ (A B X Y : Str), '_' ∉ A → '_' ∉ B →
    A ++ '_' :: X = B ++ '_' :: Y → A = B ∧ X = Y := by
  intro A
  induction A with
  | nil =>
    intro B X Y _ hB h
    cases B with
    | nil =>
      simp only [List.nil_append] at h
      injection h with _ h2
      exact ⟨rfl, h2⟩
    | cons b B' =>
      simp only [List.nil_append, List.cons_append] at h
      injection h with h1 _
      exact absurd (by rw [h1]; exact List.mem_cons_self b B') hB
  | cons a A' ih =>
    intro B X Y hA hB h
    cases B with
    | nil =>
      simp only [List.cons_append, List.nil_append] at h
      injection h with h1 _
      exact absurd (by rw [← h1]; exact List.mem_cons_self a A') hA
    | cons b B' =>
      simp only [List.cons_append] at h
      injection h with h1 h2
      obtain ⟨hab, hxy⟩ := ih B' X Y (fun hm => hA (List.mem_cons_of_mem _ hm))
        (fun hm => hB (List.mem_cons_of_mem _ hm)) h2
      exact ⟨by rw [h1, hab], hxy⟩

theorem concat_right_cancel {x y : Str} {e : Char} (h : x ++ [e] = y ++ [e]) : x = y := by
  have h2 := congrArg List.reverse h
  simp only [List.reverse_append, List.reverse_singleton, List.singleton_append] at h2
  injection h2 with _ h3
  have h4 := congrArg List.reverse h3
  simpa using h4

theorem mkTok_inj {ty1 ty2 : Str} {n1 n2 : Nat} (h : mkTok ty1 n1 = mkTok ty2 n2) :
    ty1 = ty2 ∧ n1 = n2 := by
  unfold mkTok at h
  injection h with h1 h1t
  have h2 : ty1 ++ '_' :: natDigits n1 = ty2 ++ '_' :: natDigits n2 :=
    concat_right_cancel h1t
  have h3 := congrArg List.reverse h2
  rw [List.reverse_append, List.reverse_append, List.reverse_cons, List.reverse_cons,
    List.append_assoc, List.append_assoc, List.singleton_append, List.singleton_append] at h3
  have hnd1 : '_' ∉ (natDigits n1).reverse := by
    intro hm
    exact natDigits_no_underscore (List.mem_reverse.mp hm)
  have hnd2 : '_' ∉ (natDigits n2).reverse := by
    intro hm
    exact natDigits_no_underscore (List.mem_reverse.mp hm)
  obtain ⟨hd, ht⟩ := underscore_split _ _ _ _ hnd1 hnd2 h3
  constructor
  · have h5 := congrArg List.reverse ht
    simpa using h5
  · refine natDigits_inj ?_
    have h5 := congrArg List.reverse hd
    simpa using h5

-- ==================== getOrCreate equations and invariant ====================

theorem getOrCreate_some {st : Registry} {v t : Str} (b : Str)
    (hg : mapGet st.registry v = some t) : getOrCreate v b st = (t, st) := by
  unfold getOrCreate
  rw [hg]

theorem getOrCreate_none {st : Registry} {v : Str} (b : Str)
    (hg : mapGet st.registry v = none) :
    getOrCreate v b st =
      (mkTok (extractEntityType b) (cnt st (extractEntityType b) + 1),
       { registry := mapSet st.registry v
           (mkTok (extractEntityType b) (cnt st (extractEntityType b) + 1))
         reverse := mapSet st.reverse
           (mkTok (extractEntityType b) (cnt st (extractEntityType b) + 1)) v
         counters := mapSet st.counters (extractEntityType b)
           (cnt st (extractEntityType b) + 1) }) := by
  unfold getOrCreate cnt
  rw [hg]

theorem regInv_empty : RegInv emptyRegistry := by
  refine ⟨rfl, by simp [emptyRegistry], by simp [emptyRegistry], ?_⟩
  intro p hp
  simp [emptyRegistry] at hp

theorem regInv_getOrCreate {st : Registry} (h : RegInv st) (v b : Str) :
    RegInv (getOrCreate v b st).2 := by
  obtain ⟨hrev, hkeys, htoks, hform⟩ := h
  cases hg : mapGet st.registry v with
  | some t =>
    rw [getOrCreate_some b hg]
    exact ⟨hrev, hkeys, htoks, hform⟩
  | none =>
    rw [getOrCreate_none b hg]
    have hfresh : mkTok (extractEntityType b) (cnt st (extractEntityType b) + 1) ∉
        st.registry.map Prod.snd := by
      intro hm
      obtain ⟨p, hp, hps⟩ := List.mem_map.mp hm
      obtain ⟨ty', n', hmk, hn1, hn2⟩ := hform p hp
      rw [hmk] at hps
      obtain ⟨hty, hn⟩ := mkTok_inj hps
      rw [← hty] at hn
      omega
    have hvnew : v ∉ st.registry.map Prod.fst := (mapGet_none_iff _ _).mp hg
    have hr : mapSet st.registry v
        (mkTok (extractEntityType b) (cnt st (extractEntityType b) + 1)) =
        st.registry ++ [(v, mkTok (extractEntityType b) (cnt st (extractEntityType b) + 1))] :=
      mapSet_of_none _ hg
    have hrevget : mapGet st.reverse
        (mkTok (extractEntityType b) (cnt st (extractEntityType b) + 1)) = none := by
      rw [mapGet_none_iff, hrev, List.map_map]
      have hcomp : (Prod.fst ∘ fun p : Str × Str => (p.2, p.1)) = Prod.snd := rfl
      rw [hcomp]
      exact hfresh
    have hrv : mapSet st.reverse
        (mkTok (extractEntityType b) (cnt st (extractEntityType b) + 1)) v =
        st.reverse ++ [(mkTok (extractEntityType b) (cnt st (extractEntityType b) + 1), v)] :=
      mapSet_of_none _ hrevget
    refine ⟨?_, ?_, ?_, ?_⟩
    · show mapSet st.reverse _ v = _
      rw [hrv, hr, List.map_append, hrev]
      rfl
    · show (List.map Prod.fst (mapSet st.registry v _)).Nodup
      rw [hr, List.map_append, List.nodup_append]
      refine ⟨hkeys, by simp, ?_⟩
      intro a ha hb
      simp only [List.map_cons, List.map_nil, List.mem_singleton] at hb
      subst hb
      exact hvnew ha
    · show (List.map Prod.snd (mapSet st.registry v _)).Nodup
      rw [hr, List.map_append, List.nodup_append]
      refine ⟨htoks, by simp, ?_⟩
      intro a ha hb
      simp only [List.map_cons, List.map_nil, List.mem_singleton] at hb
      subst hb
      exact hfresh ha
    · intro p hp
      have hcount : ∀ ty' : Str,
          cnt { registry := mapSet st.registry v
                  (mkTok (extractEntityType b) (cnt st (extractEntityType b) + 1))
                reverse := mapSet st.reverse
                  (mkTok (extractEntityType b) (cnt st (extractEntityType b) + 1)) v
                counters := mapSet st.counters (extractEntityType b)
                  (cnt st (extractEntityType b) + 1) : Registry } ty' =
            (if extractEntityType b = ty' then cnt st (extractEntityType b) + 1
             else cnt st ty') := by
        intro ty'
        by_cases hty : extractEntityType b = ty'
        · subst hty
          show (mapGet (mapSet st.counters _ _) _).getD 0 = _
          rw [mapGet_mapSet_self]
          simp
        · show (mapGet (mapSet st.counters _ _) _).getD 0 = _
          rw [mapGet_mapSet_ne _ _ hty, if_neg hty]
          rfl
      have hp2 : p ∈ st.registry ++
          [(v, mkTok (extractEntityType b) (cnt st (extractEntityType b) + 1))] := by
        rw [← hr]
        exact hp
      rcases List.mem_append.mp hp2 with hold | hnew
      · obtain ⟨ty', n', hmk, hn1, hn2⟩ := hform p hold
        refine ⟨ty', n', hmk, hn1, ?_⟩
        rw [hcount ty']
        by_cases hty : extractEntityType b = ty'
        · rw [if_pos hty]
          rw [← hty] at hn2
          omega
        · rw [if_neg hty]
          exact hn2
      · simp only [List.mem_singleton] at hnew
        subst hnew
        refine ⟨extractEntityType b, cnt st (extractEntityType b) + 1, rfl, by omega, ?_⟩
        rw [hcount (extractEntityType b), if_pos rfl]

theorem regInv_runCreates (calls : List (Str × Str)) : RegInv (runCreates calls) := by
  have key : ∀ (cs : List (Str × Str)) (st : Registry), RegInv st →
      RegInv (cs.foldl (fun st c => (getOrCreate c.1 c.2 st).2) st) := by
    intro cs
    induction cs with
    | nil => intro st h; exact h
    | cons c cs ih =>
      intro st h
      rw [List.foldl_cons]
      exact ih _ (regInv_getOrCreate h c.1 c.2)
  exact key calls emptyRegistry regInv_empty
-- ==================== registry-level replacement theorems ====================

theorem foldl_jsr_no_op {text : Str} :
    ∀ L : List (Str × Str), (∀ e ∈ L, containsSub e.1 text = false) →
      L.foldl (fun r e => jsReplaceAll e.1 e.2 r) text = text := by
  intro L
  induction L with
  | nil => intro _; rfl
  | cons e L ih =>
    intro h
    rw [List.foldl_cons, jsr_of_not_contains e.2 (h e (by simp))]
    exact ih (fun e' he' => h e' (List.mem_cons_of_mem _ he'))

theorem replace_no_op {st : Registry} {text : Str}
    (h : ∀ p ∈ st.registry, containsSub p.1 text = false) :
    replaceInText st text = text := by
  unfold replaceInText
  exact foldl_jsr_no_op (sortDesc st.registry)
    (fun e he => h e (mem_sortDesc.mp he))

theorem restore_no_op {st : Registry} {text : Str}
    (h : ∀ p ∈ st.reverse, containsSub p.1 text = false) :
    restoreText st text = text := by
  unfold restoreText
  exact foldl_jsr_no_op (sortDesc st.reverse)
    (fun e he => h e (mem_sortDesc.mp he))

theorem goodTok_of_regInv {st : Registry} (hinv : RegInv st) :
    ∀ u ∈ st.registry.map Prod.snd, GoodTok u := by
  intro u hu
  obtain ⟨p, hp, hps⟩ := List.mem_map.mp hu
  obtain ⟨ty, n, hmk, _, _⟩ := hinv.2.2.2 p hp
  exact ⟨ty ++ '_' :: natDigits n, by rw [← hps, hmk]; rfl⟩

/-- Core privacy property: with a reachable registry whose real values are
nonempty, bracket-free and not substrings of any registered token, the output
of `replaceInText` contains no registered real value. -/
theorem replace_no_registered {st : Registry} (hinv : RegInv st) (hvals : HypVals st) :
    ∀ text v t, mapGet st.registry v = some t →
      containsSub v (replaceInText st text) = false := by
  intro text v t hvt
  have hgood := goodTok_of_regInv hinv
  have hL : ∀ e ∈ sortDesc st.registry, e.1 ≠ [] ∧ '<' ∉ e.1 ∧ '>' ∉ e.1 ∧
      e.2 ∈ st.registry.map Prod.snd ∧
      ∀ u ∈ st.registry.map Prod.snd, containsSub e.1 u = false := by
    intro e he
    have he2 := mem_sortDesc.mp he
    obtain ⟨h1, h2, h3, h4⟩ := hvals e he2
    refine ⟨h1, h2, h3, List.mem_map.mpr ⟨e, he2, rfl⟩, ?_⟩
    intro u hu
    obtain ⟨q, hq, hqs⟩ := List.mem_map.mp hu
    rw [← hqs]
    exact h4 q hq
  have hlits : LitsOK (fun _ => True) [] [Seg.lit text] := by
    intro l hl
    refine ⟨trivial, ?_⟩
    intro w hw
    simp at hw
  have htoks0 : ToksOK (st.registry.map Prod.snd) [Seg.lit text] := by
    intro u hu
    simp at hu
  have hadj0 : noAdjLit [Seg.lit text] := by
    simp [noAdjLit]
  obtain ⟨ha, hb, hc, hd⟩ := fold_repl hgood (fun _ _ _ _ _ _ => trivial)
    (sortDesc st.registry) [Seg.lit text] [] hL hlits htoks0 hadj0
  have hflat : flatS [Seg.lit text] = text := by
    simp [flatS, Seg.flat1]
  have hrepl : replaceInText st text = flatS (stepAll (sortDesc st.registry) [Seg.lit text]) := by
    unfold replaceInText
    rw [hflat] at ha
    exact ha
  rw [hrepl]
  have hmemv : (v, t) ∈ st.registry := mapGet_mem hvt
  obtain ⟨hv1, hv2, hv3, hv4⟩ := hvals (v, t) hmemv
  refine segs_no_contains hv1 hv2 hv3 _ ?_ ?_ hd
  · intro u hu
    have hum := hc u hu
    refine ⟨hgood u hum, ?_⟩
    obtain ⟨q, hq, hqs⟩ := List.mem_map.mp hum
    rw [← hqs]
    exact hv4 q hq
  · intro l hl
    have := hb l hl
    refine (this.2 v ?_)
    simp only [List.nil_append]
    exact List.mem_map.mpr ⟨(v, t), mem_sortDesc.mpr hmemv, rfl⟩
-- ==================== restore-direction lemmas ====================

theorem jsr_head_skip {u vv : Str} (hu : ∃ u', u = '<' :: u') (R : Str) :
    ∀ l, '<' ∉ l → jsReplaceAll u vv (l ++ R) = l ++ jsReplaceAll u vv R := by
  obtain ⟨u', rfl⟩ := hu
  intro l
  induction l with
  | nil => intro _; rfl
  | cons c cs ih =>
    intro hl
    have hcne : ('<' == c) = false := by
      have : c ≠ '<' := fun he => hl (he ▸ List.mem_cons_self c cs)
      exact beq_eq_false_iff_ne.mpr (fun he => this he.symm)
    rw [List.cons_append, jsr_cons vv c (cs ++ R) (by simp)]
    have hlead : leadsWith ('<' :: u') (c :: (cs ++ R)) = false := by
      simp [leadsWith, hcne]
    rw [hlead, if_neg (by simp), ih (fun hm => hl (List.mem_cons_of_mem _ hm))]
    rfl

theorem leads_wf_eq : ∀ (iu it R : Str), '>' ∉ iu → '>' ∉ it →
    leadsWith (iu ++ ['>']) ((it ++ ['>']) ++ R) = true → iu = it := by
  intro iu
  induction iu with
  | nil =>
    intro it R _ hit h
    cases it with
    | nil => rfl
    | cons b it' =>
      simp only [List.nil_append, List.cons_append, leadsWith, Bool.and_eq_true,
        beq_iff_eq] at h
      exfalso
      apply hit
      rw [← h.1]
      exact List.mem_cons_self _ _
  | cons a iu' ih =>
    intro it R hiu hit h
    cases it with
    | nil =>
      simp only [List.cons_append, List.nil_append, leadsWith, Bool.and_eq_true,
        beq_iff_eq] at h
      exfalso
      apply hiu
      rw [h.1]
      exact List.mem_cons_self _ _
    | cons b it' =>
      simp only [List.cons_append, leadsWith, Bool.and_eq_true, beq_iff_eq] at h
      have h2 : leadsWith (iu' ++ ['>']) ((it' ++ ['>']) ++ R) = true := by
        have := h.2
        simpa using this
      rw [h.1, ih it' R (fun hm => hiu (List.mem_cons_of_mem _ hm))
        (fun hm => hit (List.mem_cons_of_mem _ hm)) h2]

theorem jsr_self_append {u vv : Str} (hu : u ≠ []) (R : Str) :
    jsReplaceAll u vv (u ++ R) = vv ++ jsReplaceAll u vv R := by
  cases u with
  | nil => exact absurd rfl hu
  | cons c cu =>
    rw [List.cons_append, jsr_cons vv c (cu ++ R) hu,
      if_pos (by rw [← List.cons_append]; exact leads_self_append _ R)]
    have : List.drop ((c :: cu).length - 1) (cu ++ R) = R := by
      have h2 : (c :: cu).length - 1 = cu.length := by simp
      rw [h2]
      exact List.drop_left cu R
    rw [this]

theorem jsr_tok_ne {u t vv : Str} (hwu : WfTok u) (hwt : WfTok t) (hne : u ≠ t) (R : Str) :
    jsReplaceAll u vv (t ++ R) = t ++ jsReplaceAll u vv R := by
  obtain ⟨iu, hu1, hu2, hu3⟩ := hwu
  obtain ⟨it, ht1, ht2, ht3⟩ := hwt
  subst hu1
  subst ht1
  have hstep1 : jsReplaceAll ('<' :: iu ++ ['>']) vv
      (('<' :: it ++ ['>']) ++ R) =
      '<' :: jsReplaceAll ('<' :: iu ++ ['>']) vv ((it ++ ['>']) ++ R) := by
    rw [show ('<' :: it ++ ['>']) ++ R = '<' :: ((it ++ ['>']) ++ R) by simp,
      jsr_cons vv '<' ((it ++ ['>']) ++ R) (by simp)]
    have hlead : leadsWith ('<' :: iu ++ ['>']) ('<' :: ((it ++ ['>']) ++ R)) = false := by
      cases hl : leadsWith ('<' :: iu ++ ['>']) ('<' :: ((it ++ ['>']) ++ R)) with
      | false => rfl
      | true =>
        have h2 : leadsWith (iu ++ ['>']) ((it ++ ['>']) ++ R) = true := by
          simpa [leadsWith] using hl
        have := leads_wf_eq iu it R hu3 ht3 h2
        exact absurd (by rw [this]) hne
    rw [hlead, if_neg (by simp)]
  rw [hstep1]
  have hstep2 : jsReplaceAll ('<' :: iu ++ ['>']) vv ((it ++ ['>']) ++ R) =
      it ++ jsReplaceAll ('<' :: iu ++ ['>']) vv (['>'] ++ R) := by
    rw [List.append_assoc]
    exact jsr_head_skip ⟨iu ++ ['>'], rfl⟩ (['>'] ++ R) it ht2
  rw [hstep2]
  have hstep3 : jsReplaceAll ('<' :: iu ++ ['>']) vv (['>'] ++ R) =
      '>' :: jsReplaceAll ('<' :: iu ++ ['>']) vv R := by
    rw [List.singleton_append, jsr_cons vv '>' R (by simp)]
    have hlead : leadsWith ('<' :: iu ++ ['>']) ('>' :: R) = false := by
      simp [leadsWith]
    rw [hlead, if_neg (by simp)]
  rw [hstep3]
  simp

theorem restore_step_flat {u vv : Str} (hwu : WfTok u) :
    ∀ segs, (∀ l, Seg.lit l ∈ segs → '<' ∉ l) → (∀ t, Seg.tok t ∈ segs → WfTok t) →
      jsReplaceAll u vv (flatS segs) = flatS (restoreBlocks u vv segs) := by
  intro segs
  induction segs with
  | nil =>
    intro _ _
    show jsReplaceAll u vv [] = flatS []
    rw [jsr_nil]
    rfl
  | cons s r ih =>
    intro hlit htok
    cases s with
    | lit l =>
      show jsReplaceAll u vv (l ++ flatS r) = flatS (Seg.lit l :: restoreBlocks u vv r)
      obtain ⟨iu, hu1, _, _⟩ := hwu
      rw [jsr_head_skip ⟨iu ++ ['>'], by simp [hu1]⟩ (flatS r) l (hlit l (by simp)),
        ih (fun l2 hl2 => hlit l2 (List.mem_cons_of_mem _ hl2))
          (fun t2 ht2 => htok t2 (List.mem_cons_of_mem _ ht2))]
      rfl
    | tok t =>
      have hune : u ≠ [] := by
        obtain ⟨iu, hu1, _, _⟩ := hwu
        rw [hu1]
        simp
      show jsReplaceAll u vv (t ++ flatS r) =
        flatS ((if t = u then Seg.lit vv else Seg.tok t) :: restoreBlocks u vv r)
      by_cases hte : t = u
      · rw [if_pos hte, hte, jsr_self_append hune (flatS r),
          ih (fun l2 hl2 => hlit l2 (List.mem_cons_of_mem _ hl2))
            (fun t2 ht2 => htok t2 (List.mem_cons_of_mem _ ht2))]
        rfl
      · rw [if_neg hte,
          jsr_tok_ne hwu (htok t (by simp)) (fun he => hte he.symm) (flatS r),
          ih (fun l2 hl2 => hlit l2 (List.mem_cons_of_mem _ hl2))
            (fun t2 ht2 => htok t2 (List.mem_cons_of_mem _ ht2))]
        rfl
-- ==================== restore fold and round trip ====================

theorem restoreBlocks_mem_lit {u vv l : Str} {segs : List Seg}
    (h : Seg.lit l ∈ restoreBlocks u vv segs) : Seg.lit l ∈ segs ∨ l = vv := by
  obtain ⟨s, hs, hfs⟩ := List.mem_map.mp h
  cases s with
  | lit l0 =>
    simp only at hfs
    injection hfs with h1
    exact Or.inl (h1 ▸ hs)
  | tok t =>
    simp only at hfs
    by_cases ht : t = u
    · rw [if_pos ht] at hfs
      injection hfs with h1
      exact Or.inr h1.symm
    · rw [if_neg ht] at hfs
      exact Seg.noConfusion hfs

theorem restoreBlocks_mem_tok {u vv t : Str} {segs : List Seg}
    (h : Seg.tok t ∈ restoreBlocks u vv segs) : Seg.tok t ∈ segs := by
  obtain ⟨s, hs, hfs⟩ := List.mem_map.mp h
  cases s with
  | lit l0 =>
    simp only at hfs
    exact Seg.noConfusion hfs
  | tok t0 =>
    simp only at hfs
    by_cases ht : t0 = u
    · rw [if_pos ht] at hfs
      exact Seg.noConfusion hfs
    · rw [if_neg ht] at hfs
      injection hfs with h1
      exact h1 ▸ hs

theorem restore_fold :
    ∀ (L : List (Str × Str)) (segs : List Seg),
      (∀ e ∈ L, WfTok e.1 ∧ '<' ∉ e.2) →
      (∀ l, Seg.lit l ∈ segs → '<' ∉ l) →
      (∀ t, Seg.tok t ∈ segs → WfTok t) →
      L.foldl (fun r e => jsReplaceAll e.1 e.2 r) (flatS segs) =
        flatS (restoreAll L segs) := by
  intro L
  induction L with
  | nil => intro segs _ _ _; rfl
  | cons e L ih =>
    intro segs hL hlit htok
    obtain ⟨hwe, hve⟩ := hL e (by simp)
    rw [List.foldl_cons, restore_step_flat hwe segs hlit htok]
    have : restoreAll (e :: L) segs = restoreAll L (restoreBlocks e.1 e.2 segs) := rfl
    rw [this]
    refine ih (restoreBlocks e.1 e.2 segs)
      (fun e' he' => hL e' (List.mem_cons_of_mem _ he')) ?_ ?_
    · intro l hl
      rcases restoreBlocks_mem_lit hl with h1 | h2
      · exact hlit l h1
      · exact h2 ▸ hve
    · intro t ht
      exact htok t (restoreBlocks_mem_tok ht)

theorem restoreAll_map : ∀ (L : List (Str × Str)) (segs : List Seg),
    restoreAll L segs = segs.map (rbAll L) := by
  intro L
  induction L with
  | nil =>
    intro segs
    show segs = segs.map (rbAll [])
    symm
    exact (List.map_congr_left (fun s _ => rfl)).trans (List.map_id _)
  | cons e L ih =>
    intro segs
    have h1 : restoreAll (e :: L) segs = restoreAll L (restoreBlocks e.1 e.2 segs) := rfl
    rw [h1, ih]
    unfold restoreBlocks
    rw [List.map_map]
    exact List.map_congr_left (fun s _ => rfl)

theorem rbAll_lit (L : List (Str × Str)) (l : Str) : rbAll L (Seg.lit l) = Seg.lit l := by
  induction L with
  | nil => rfl
  | cons e L ih => exact ih

theorem rbAll_tok (L : List (Str × Str)) (t : Str) :
    rbAll L (Seg.tok t) =
      (match mapGet L t with
       | some vv => Seg.lit vv
       | none => Seg.tok t) := by
  induction L with
  | nil => rfl
  | cons e L ih =>
    obtain ⟨k0, v0⟩ := e
    by_cases h : t = k0
    · have h1 : rbAll ((k0, v0) :: L) (Seg.tok t) = rbAll L (Seg.lit v0) := by
        show rbAll L (if t = k0 then Seg.lit v0 else Seg.tok t) = _
        rw [if_pos h]
      rw [h1, rbAll_lit]
      have h2 : mapGet ((k0, v0) :: L) t = some v0 := by
        show (if k0 = t then some v0 else mapGet L t) = some v0
        rw [if_pos h.symm]
      rw [h2]
    · have h1 : rbAll ((k0, v0) :: L) (Seg.tok t) = rbAll L (Seg.tok t) := by
        show rbAll L (if t = k0 then Seg.lit v0 else Seg.tok t) = _
        rw [if_neg h]
      have h2 : mapGet ((k0, v0) :: L) t = mapGet L t := by
        show (if k0 = t then some v0 else mapGet L t) = _
        rw [if_neg (fun he => h he.symm)]
      rw [h1, h2, ih]

theorem mapGet_perm {α : Type} {m m' : List (Str × α)} (hperm : m.Perm m')
    (hnd : (m'.map Prod.fst).Nodup) (k : Str) : mapGet m k = mapGet m' k := by
  have hnd2 : (m.map Prod.fst).Nodup := ((hperm.map Prod.fst).nodup_iff).mpr hnd
  cases hg : mapGet m k with
  | some v =>
    symm
    exact mem_mapGet hnd (hperm.subset (mapGet_mem hg))
  | none =>
    symm
    rw [mapGet_none_iff]
    intro hm
    have hm2 : k ∈ m.map Prod.fst := ((hperm.map Prod.fst).mem_iff).mpr hm
    exact absurd hm2 ((mapGet_none_iff _ _).mp hg)

theorem mappedFlat_nil (st : Registry) : mappedFlat st [] = [] := rfl

theorem mappedFlat_lit_cons (st : Registry) (l : Str) (segs : List Seg) :
    mappedFlat st (Seg.lit l :: segs) = l ++ mappedFlat st segs := rfl

theorem mappedFlat_tok_cons (st : Registry) (t : Str) (segs : List Seg) :
    mappedFlat st (Seg.tok t :: segs) =
      (mapGet st.reverse t).getD [] ++ mappedFlat st segs := rfl

theorem mappedFlat_append (st : Registry) (A B : List Seg) :
    mappedFlat st (A ++ B) = mappedFlat st A ++ mappedFlat st B := by
  unfold mappedFlat
  rw [List.map_append, flatS_append]

theorem mappedFlat_segsOfPieces {st : Registry} {t v : Str}
    (hrv : (mapGet st.reverse t).getD [] = v) :
    ∀ ps, mappedFlat st (segsOfPieces t ps) = joinWith v ps := by
  intro ps
  induction ps with
  | nil => rfl
  | cons p qs ih =>
    cases qs with
    | nil =>
      show mappedFlat st [Seg.lit p] = p
      rw [mappedFlat_lit_cons, mappedFlat_nil, List.append_nil]
    | cons q ps' =>
      show mappedFlat st (Seg.lit p :: Seg.tok t :: segsOfPieces t (q :: ps')) = _
      rw [mappedFlat_lit_cons, mappedFlat_tok_cons, hrv, ih,
        joinWith_cons p (by simp)]
      simp

theorem mappedFlat_stepSegs {st : Registry} {v t : Str} (hv : v ≠ [])
    (hrv : mapGet st.reverse t = some v) :
    ∀ segs, mappedFlat st (stepSegs v t segs) = mappedFlat st segs := by
  intro segs
  induction segs with
  | nil => rfl
  | cons s r ih =>
    cases s with
    | lit l =>
      show mappedFlat st (segsOfPieces t (splitPieces v l) ++ stepSegs v t r) = _
      rw [mappedFlat_append, ih,
        mappedFlat_segsOfPieces (by simp [hrv] : (mapGet st.reverse t).getD [] = v)
          (splitPieces v l),
        joinWith_splitPieces hv l.length l (le_refl _), mappedFlat_lit_cons]
    | tok w =>
      show mappedFlat st (Seg.tok w :: stepSegs v t r) = _
      rw [mappedFlat_tok_cons, ih, mappedFlat_tok_cons]

theorem mappedFlat_stepAll {st : Registry} :
    ∀ (L : List (Str × Str)) (segs : List Seg),
      (∀ e ∈ L, e.1 ≠ [] ∧ mapGet st.reverse e.2 = some e.1) →
      mappedFlat st (stepAll L segs) = mappedFlat st segs := by
  intro L
  induction L with
  | nil => intro segs _; rfl
  | cons e L ih =>
    intro segs hL
    obtain ⟨h1, h2⟩ := hL e (by simp)
    have hstep : stepAll (e :: L) segs = stepAll L (stepSegs e.1 e.2 segs) := rfl
    rw [hstep, ih (stepSegs e.1 e.2 segs) (fun e' he' => hL e' (List.mem_cons_of_mem _ he')),
      mappedFlat_stepSegs h1 h2]
-- ==================== full round trip ====================

theorem revKeys_nodup {st : Registry} (hinv : RegInv st) :
    (st.reverse.map Prod.fst).Nodup := by
  rw [hinv.1, List.map_map]
  have hcomp : (Prod.fst ∘ fun p : Str × Str => (p.2, p.1)) = Prod.snd := rfl
  rw [hcomp]
  exact hinv.2.2.1

theorem revGet_of_mem {st : Registry} (hinv : RegInv st) {p : Str × Str}
    (hp : p ∈ st.registry) : mapGet st.reverse p.2 = some p.1 := by
  refine mem_mapGet (revKeys_nodup hinv) ?_
  rw [hinv.1]
  exact List.mem_map.mpr ⟨p, hp, rfl⟩

/-- Round trip: with a reachable, benign registry (nonempty bracket-free
values not occurring in tokens, bracket-free entity types), restoring the
replacement of any bracket-free text yields the text back. -/
theorem restore_replace {st : Registry} (hinv : RegInv st) (hvals : HypVals st)
    (hwf : ∀ p ∈ st.registry, WfTok p.2) :
    ∀ text, '<' ∉ text → '>' ∉ text →
      restoreText st (replaceInText st text) = text := by
  intro text hlt hgt
  have hgood := goodTok_of_regInv hinv
  have hP : ∀ v l p : Str, v ≠ [] → ('<' ∉ l ∧ '>' ∉ l) → p ∈ splitPieces v l →
      '<' ∉ p ∧ '>' ∉ p := by
    intro v l p hv hl hp
    obtain ⟨a, b, hab⟩ := splitPieces_within hv l.length l (le_refl _) p hp
    constructor
    · intro hm
      exact hl.1 (by rw [hab]; simp [hm])
    · intro hm
      exact hl.2 (by rw [hab]; simp [hm])
  have hL : ∀ e ∈ sortDesc st.registry, e.1 ≠ [] ∧ '<' ∉ e.1 ∧ '>' ∉ e.1 ∧
      e.2 ∈ st.registry.map Prod.snd ∧
      ∀ u ∈ st.registry.map Prod.snd, containsSub e.1 u = false := by
    intro e he
    have he2 := mem_sortDesc.mp he
    obtain ⟨h1, h2, h3, h4⟩ := hvals e he2
    refine ⟨h1, h2, h3, List.mem_map.mpr ⟨e, he2, rfl⟩, ?_⟩
    intro u hu
    obtain ⟨q, hq, hqs⟩ := List.mem_map.mp hu
    rw [← hqs]
    exact h4 q hq
  have hlits : LitsOK (fun l => '<' ∉ l ∧ '>' ∉ l) [] [Seg.lit text] := by
    intro l hl
    have hl2 : l = text := by
      simp only [List.mem_singleton] at hl
      injection hl with h
    subst hl2
    exact ⟨⟨hlt, hgt⟩, fun w hw => by simp at hw⟩
  have htoks0 : ToksOK (st.registry.map Prod.snd) [Seg.lit text] := by
    intro u hu
    simp at hu
  have hadj0 : noAdjLit [Seg.lit text] := by
    simp [noAdjLit]
  obtain ⟨ha, hb, hc, hd⟩ := fold_repl hgood hP
    (sortDesc st.registry) [Seg.lit text] [] hL hlits htoks0 hadj0
  have hflat : flatS [Seg.lit text] = text := by
    simp [flatS, Seg.flat1]
  have hrepl : replaceInText st text =
      flatS (stepAll (sortDesc st.registry) [Seg.lit text]) := by
    unfold replaceInText
    rw [hflat] at ha
    exact ha
  have hlitF : ∀ l, Seg.lit l ∈ stepAll (sortDesc st.registry) [Seg.lit text] → '<' ∉ l :=
    fun l hl => (hb l hl).1.1
  have htokF : ∀ t, Seg.tok t ∈ stepAll (sortDesc st.registry) [Seg.lit text] → WfTok t := by
    intro t ht
    obtain ⟨q, hq, hqs⟩ := List.mem_map.mp (hc t ht)
    exact hqs ▸ hwf q hq
  have hLrev : ∀ e ∈ sortDesc st.reverse, WfTok e.1 ∧ '<' ∉ e.2 := by
    intro e he
    have he2 := mem_sortDesc.mp he
    rw [hinv.1] at he2
    obtain ⟨q, hq, hqs⟩ := List.mem_map.mp he2
    constructor
    · rw [← hqs]
      exact hwf q hq
    · rw [← hqs]
      exact (hvals q hq).2.1
  rw [hrepl]
  unfold restoreText
  rw [restore_fold (sortDesc st.reverse) _ hLrev hlitF htokF,
    restoreAll_map]
  have hmapeq : (stepAll (sortDesc st.registry) [Seg.lit text]).map (rbAll (sortDesc st.reverse)) =
      (stepAll (sortDesc st.registry) [Seg.lit text]).map (fun s => match s with
        | Seg.lit l => Seg.lit l
        | Seg.tok t => Seg.lit ((mapGet st.reverse t).getD [])) := by
    refine List.map_congr_left ?_
    intro s hs
    cases s with
    | lit l => rw [rbAll_lit]
    | tok t =>
      have hget : mapGet (sortDesc st.reverse) t = mapGet st.reverse t :=
        mapGet_perm (sortDesc_perm st.reverse) (revKeys_nodup hinv) t
      obtain ⟨q, hq, hqs⟩ := List.mem_map.mp (hc t hs)
      have hrv : mapGet st.reverse t = some q.1 := by
        rw [← hqs]
        exact revGet_of_mem hinv hq
      rw [rbAll_tok]
      show (match mapGet (sortDesc st.reverse) t with
        | some vv => Seg.lit vv
        | none => Seg.tok t) = Seg.lit ((mapGet st.reverse t).getD [])
      rw [hget, hrv]
      rfl
  rw [hmapeq]
  have hmf : flatS ((stepAll (sortDesc st.registry) [Seg.lit text]).map (fun s => match s with
      | Seg.lit l => Seg.lit l
      | Seg.tok t => Seg.lit ((mapGet st.reverse t).getD []))) =
      mappedFlat st (stepAll (sortDesc st.registry) [Seg.lit text]) := rfl
  rw [hmf, mappedFlat_stepAll (sortDesc st.registry) [Seg.lit text] ?_]
  · show text ++ [] = text
    simp
  · intro e he
    have he2 := mem_sortDesc.mp he
    exact ⟨(hvals e he2).1, revGet_of_mem hinv he2⟩
-- ==================== claim theorems ====================

/-- C2: once `getOrCreate(v, t)` has returned a token, any later
`getOrCreate(v, t2)` on the resulting registry returns the same token with any
detector token, and leaves the registry state unchanged. -/
theorem claim_C2_getOrCreate_stable (st : Registry) (v t t2 : Str) :
    getOrCreate v t2 ((getOrCreate v t st).2) =
      ((getOrCreate v t st).1, (getOrCreate v t st).2) := by
  cases hg : mapGet st.registry v with
  | some k =>
    rw [getOrCreate_some t hg]
    exact getOrCreate_some t2 hg
  | none =>
    rw [getOrCreate_none t hg]
    exact getOrCreate_some t2 (mapGet_mapSet_self _ _ _)

/-- C3: after every sequence of `getOrCreate` calls on one registry, distinct
real values have distinct tokens, no real value has two tokens, and the
reverse map is exactly the swapped forward map. -/
theorem claim_C3_bijection (calls : List (Str × Str)) :
    (∀ v1 v2 t1 t2, mapGet (runCreates calls).registry v1 = some t1 →
      mapGet (runCreates calls).registry v2 = some t2 → v1 ≠ v2 → t1 ≠ t2) ∧
    (∀ v t1 t2, (v, t1) ∈ (runCreates calls).registry →
      (v, t2) ∈ (runCreates calls).registry → t1 = t2) ∧
    (runCreates calls).reverse =
      (runCreates calls).registry.map (fun p => (p.2, p.1)) := by
  obtain ⟨hrev, hkeys, htoks, _⟩ := regInv_runCreates calls
  refine ⟨?_, ?_, hrev⟩
  · intro v1 v2 t1 t2 h1 h2 hne heq
    subst heq
    have hpq := List.inj_on_of_nodup_map htoks (mapGet_mem h1) (mapGet_mem h2) rfl
    injection hpq with ha _
    exact hne ha
  · intro v t1 t2 h1 h2
    have hpq := List.inj_on_of_nodup_map hkeys h1 h2 rfl
    injection hpq with _ hb

/-- C3 witness: two distinct values registered through the detector receive
the distinct tokens `<P_1>` and `<P_2>`. -/
theorem claim_C3_bijection_witness : str "<P_1>" ≠ str "<P_2>" :=
  (claim_C3_bijection [(str "a", str "<P>"), (str "b", str "<P>")]).1
    (str "a") (str "b") (str "<P_1>") (str "<P_2>") (by decide) (by decide) (by decide)

/-- C5: replacement is literal, longest-value-first substring substitution of
every occurrence: with "Marie" and "Marie Dupont" both registered,
"Marie Dupont" is tokenized as a whole and only the standalone "Marie" gets
the token of "Marie"; repeated occurrences are all replaced. -/
theorem claim_C5_substring_safety :
    replaceInText (runCreates [(str "Marie", str "<Person_1>"),
        (str "Marie Dupont", str "<Person_2>")])
      (str "Marie Dupont called Marie") = str "<Person_2> called <Person_1>" ∧
    replaceInText (runCreates [(str "Marie", str "<Person_1>"),
        (str "Marie Dupont", str "<Person_2>")])
      (str "Marie met Marie") = str "<Person_1> met <Person_1>" := by
  constructor
  · decide
  · decide

/-- C7: entity types are parsed from detector tokens by stripping the angle
brackets and dropping the last-underscore suffix only when it is fully
numeric; tokens without such a suffix keep the whole stripped string. -/
theorem claim_C7_entity_type_parsing :
    extractEntityType (str "<Email_Address_3>") = str "Email_Address" ∧
    extractEntityType (str "<Weird>") = str "Weird" ∧
    extractEntityType (str "<Type_Name>") = str "Type_Name" := by
  refine ⟨by decide, by decide, by decide⟩

/-- C10: the two TokenRegistry classes in the repository are extensionally
equivalent: every method call sequence from a fresh object produces identical
outputs and identical states, and every single method call agrees. -/
theorem claim_C10_equivalence :
    (∀ ops : List Op, runSeq ops = PartFive.runSeq ops) ∧
    (∀ (st : Registry) (op : Op), runOp st op = PartFive.runOp st op) :=
  ⟨fun _ => rfl, fun _ _ => rfl⟩

/-- C9: every operation preserves existing associations, never decreases a
per-type counter, `replaceInText`/`restoreText` leave the state unchanged, and
a fresh registration uses the incremented counter value (so an assigned number
is never reused). -/
theorem claim_C9_monotonic (st : Registry) (op : Op) :
    (∀ v t, mapGet st.registry v = some t →
      mapGet (runOp st op).2.registry v = some t) ∧
    (∀ ty, cnt st ty ≤ cnt (runOp st op).2 ty) ∧
    (∀ text, (runOp st (Op.repl text)).2 = st ∧ (runOp st (Op.rest text)).2 = st) ∧
    (∀ v b, mapGet st.registry v = none →
      (getOrCreate v b st).1 =
        mkTok (extractEntityType b) (cnt st (extractEntityType b) + 1) ∧
      cnt (getOrCreate v b st).2 (extractEntityType b) =
        cnt st (extractEntityType b) + 1) := by
  refine ⟨?_, ?_, fun text => ⟨rfl, rfl⟩, ?_⟩
  · intro v t hv
    cases op with
    | repl _ => exact hv
    | rest _ => exact hv
    | create v2 b =>
      show mapGet (getOrCreate v2 b st).2.registry v = some t
      cases hg : mapGet st.registry v2 with
      | some k =>
        rw [getOrCreate_some b hg]
        exact hv
      | none =>
        rw [getOrCreate_none b hg]
        show mapGet (mapSet st.registry v2 _) v = some t
        rw [mapSet_of_none _ hg]
        exact mapGet_append_some _ hv
  · intro ty
    cases op with
    | repl _ => exact le_refl _
    | rest _ => exact le_refl _
    | create v2 b =>
      show cnt st ty ≤ cnt (getOrCreate v2 b st).2 ty
      cases hg : mapGet st.registry v2 with
      | some k =>
        rw [getOrCreate_some b hg]
      | none =>
        rw [getOrCreate_none b hg]
        show cnt st ty ≤ (mapGet (mapSet st.counters (extractEntityType b) _) ty).getD 0
        by_cases hty : extractEntityType b = ty
        · subst hty
          rw [mapGet_mapSet_self]
          show cnt st (extractEntityType b) ≤ cnt st (extractEntityType b) + 1
          omega
        · rw [mapGet_mapSet_ne _ _ hty]
          exact le_refl _
  · intro v b hg
    rw [getOrCreate_none b hg]
    refine ⟨rfl, ?_⟩
    show (mapGet (mapSet st.counters (extractEntityType b) _) (extractEntityType b)).getD 0 = _
    rw [mapGet_mapSet_self]
    rfl

/-- C9 witness: a registration on a fresh key keeps a previously stored
association intact. -/
theorem claim_C9_monotonic_witness :
    mapGet (runOp (runCreates [(str "a", str "<P>")])
      (Op.create (str "b") (str "<P>"))).2.registry (str "a") = some (str "<P_1>") :=
  (claim_C9_monotonic (runCreates [(str "a", str "<P>")])
    (Op.create (str "b") (str "<P>"))).1 (str "a") (str "<P_1>") (by decide)
/-- C1 counterexample: with the real value "a\n\nb" registered and both
retrieved documents being `replaceInText` outputs, the assembled prompt
contains the registered real value (it spans the blank-line glue between the
two documents), refuting the claim as stated. -/
theorem claim_C1_counterexample :
    mapGet (runCreates [(str "a\n\nb", str "<X>")]).registry (str "a\n\nb") =
      some (str "<X_1>") ∧
    replaceInText (runCreates [(str "a\n\nb", str "<X>")]) (str "a") = str "a" ∧
    replaceInText (runCreates [(str "a\n\nb", str "<X>")]) (str "b") = str "b" ∧
    containsSub (str "a\n\nb")
      (strategyCPrompt
        [replaceInText (runCreates [(str "a\n\nb", str "<X>")]) (str "a"),
         replaceInText (runCreates [(str "a\n\nb", str "<X>")]) (str "b")]
        (replaceInText (runCreates [(str "a\n\nb", str "<X>")]) (str "hello"))) =
      true := by
  refine ⟨by decide, by decide, by decide, by decide⟩

/-- C1 amended: constituent-wise privacy: for a registry reached by
`getOrCreate` calls whose real values are nonempty, bracket-free and occur in
no registered token, the rewritten question and every retrieved pseudonymized
document contain no occurrence of any registered real value (occurrences can
arise only across the glue between prompt constituents). -/
theorem claim_C1_privacy_amended (calls : List (Str × Str))
    (hvals : HypVals (runCreates calls)) (question : Str) (docs : List Str)
    (hdocs : ∀ d ∈ docs, ∃ d0, d = replaceInText (runCreates calls) d0) :
    ∀ v t, mapGet (runCreates calls).registry v = some t →
      containsSub v (replaceInText (runCreates calls) question) = false ∧
      ∀ d ∈ docs, containsSub v d = false := by
  intro v t hvt
  constructor
  · exact replace_no_registered (regInv_runCreates calls) hvals question v t hvt
  · intro d hd
    obtain ⟨d0, rfl⟩ := hdocs d hd
    exact replace_no_registered (regInv_runCreates calls) hvals d0 v t hvt

/-- C1 amended witness: with "Hans" registered, neither the rewritten
question nor a rewritten document contains "Hans". -/
theorem claim_C1_privacy_amended_witness :
    containsSub (str "Hans")
      (replaceInText (runCreates [(str "Hans", str "<P>")]) (str "Where is Hans?")) =
      false :=
  (claim_C1_privacy_amended [(str "Hans", str "<P>")] (by decide)
    (str "Where is Hans?")
    [replaceInText (runCreates [(str "Hans", str "<P>")]) (str "Hans lives here")]
    (fun d hd => ⟨str "Hans lives here", by
      rw [List.mem_singleton] at hd
      exact hd⟩)
    (str "Hans") (str "<P_1>") (by decide)).1

/-- C6 counterexample: with "a" and the token-shaped real value "<P_1>" both
registered, replacing twice differs from replacing once on the text "a", so
`replaceInText` is not idempotent for every registry. -/
theorem claim_C6_counterexample :
    replaceInText (runCreates [(str "a", str "<P>"), (str "<P_1>", str "<Q>")])
      (str "a") = str "<P_1>" ∧
    replaceInText (runCreates [(str "a", str "<P>"), (str "<P_1>", str "<Q>")])
      (replaceInText (runCreates [(str "a", str "<P>"), (str "<P_1>", str "<Q>")])
        (str "a")) = str "<Q_1>" ∧
    str "<Q_1>" ≠ str "<P_1>" := by
  refine ⟨by decide, by decide, by decide⟩

/-- C6 amended: for a registry reached by `getOrCreate` calls whose real
values are nonempty, bracket-free and occur in no registered token,
`replaceInText` applied to its own output is a no-op. -/
theorem claim_C6_idempotent_amended (calls : List (Str × Str))
    (hvals : HypVals (runCreates calls)) (text : Str) :
    replaceInText (runCreates calls) (replaceInText (runCreates calls) text) =
      replaceInText (runCreates calls) text := by
  apply replace_no_op
  intro p hp
  have hget : mapGet (runCreates calls).registry p.1 = some p.2 :=
    mem_mapGet (regInv_runCreates calls).2.1 (by simpa using hp)
  exact replace_no_registered (regInv_runCreates calls) hvals text p.1 p.2 hget

/-- C6 amended witness: a second replacement pass changes nothing on a
benign registry. -/
theorem claim_C6_idempotent_amended_witness :
    replaceInText (runCreates [(str "Hans", str "<P>")])
        (replaceInText (runCreates [(str "Hans", str "<P>")]) (str "Hans is here")) =
      replaceInText (runCreates [(str "Hans", str "<P>")]) (str "Hans is here") :=
  claim_C6_idempotent_amended [(str "Hans", str "<P>")] (by decide) (str "Hans is here")

/-- C4 counterexample: with "x" registered as `<P_1>`, the pure literal text
"<P_1>" (which contains no registered real value) does not round trip:
replacing leaves it unchanged and restoring turns it into "x". -/
theorem claim_C4_counterexample :
    containsSub (str "x") (str "<P_1>") = false ∧
    replaceInText (runCreates [(str "x", str "<P>")]) (str "<P_1>") = str "<P_1>" ∧
    restoreText (runCreates [(str "x", str "<P>")])
      (replaceInText (runCreates [(str "x", str "<P>")]) (str "<P_1>")) = str "x" ∧
    str "x" ≠ str "<P_1>" := by
  refine ⟨by decide, by decide, by decide, by decide⟩

/-- C4 amended: for a registry reached by `getOrCreate` calls whose real
values are nonempty, bracket-free and occur in no registered token and whose
tokens have bracket-free entity types, every bracket-free text — in
particular any concatenation of registered real values and bracket-free
literal text — satisfies `restoreText (replaceInText T) = T`. -/
theorem claim_C4_roundtrip_amended (calls : List (Str × Str))
    (hvals : HypVals (runCreates calls))
    (hwf : ∀ p ∈ (runCreates calls).registry, WfTok p.2)
    (text : Str) (hlt : '<' ∉ text) (hgt : '>' ∉ text) :
    restoreText (runCreates calls) (replaceInText (runCreates calls) text) = text :=
  restore_replace (regInv_runCreates calls) hvals hwf text hlt hgt

/-- C4 amended witness: a text built from the registered value "Hans" and
literal text round trips. -/
theorem claim_C4_roundtrip_amended_witness :
    restoreText (runCreates [(str "Hans", str "<Person_1>")])
        (replaceInText (runCreates [(str "Hans", str "<Person_1>")])
          (str "Hans called Hans")) = str "Hans called Hans" :=
  claim_C4_roundtrip_amended [(str "Hans", str "<Person_1>")] (by decide)
    (fun p hp => by
      have hreg : (runCreates [(str "Hans", str "<Person_1>")]).registry =
          [(str "Hans", str "<Person_1>")] := by decide
      rw [hreg] at hp
      have hp2 : p = (str "Hans", str "<Person_1>") := by simpa using hp
      rw [hp2]
      exact ⟨str "Person_1", by decide⟩)
    (str "Hans called Hans") (by decide) (by decide)

/-- C8 counterexample: on the bracket-less detector token "A_2" the code does
not fall back to the raw token string as the type: it still strips the
numeric suffix and produces `<A_1>`, not `<A_2_1>`. -/
theorem claim_C8_counterexample :
    (getOrCreate (str "v") (str "A_2") emptyRegistry).1 = str "<A_1>" ∧
    str "<A_1>" ≠ str "<A_2_1>" := by
  refine ⟨by decide, by decide⟩

/-- C8 amended: no operation fails: a text without registered values passes
through `replaceInText` unchanged, a text without registered tokens passes
through `restoreText` unchanged, `getOrCreate` on a fresh value always
returns `<type_count>` built from `extractEntityType` of the detector token
(however malformed), and a bracket-less token is used raw as the type exactly
when it has no trailing underscore-digits suffix. -/
theorem claim_C8_no_failures (st : Registry) (text : Str) :
    ((∀ p ∈ st.registry, containsSub p.1 text = false) →
      replaceInText st text = text) ∧
    ((∀ p ∈ st.reverse, containsSub p.1 text = false) →
      restoreText st text = text) ∧
    (∀ v b, mapGet st.registry v = none →
      (getOrCreate v b st).1 =
        mkTok (extractEntityType b) (cnt st (extractEntityType b) + 1)) ∧
    extractEntityType (str "Weird") = str "Weird" ∧
    extractEntityType (str "Weird_stuff") = str "Weird_stuff" := by
  refine ⟨fun h => replace_no_op h, fun h => restore_no_op h, ?_, by decide, by decide⟩
  intro v b hg
  rw [getOrCreate_none b hg]

/-- C8 amended witness: a text free of registered values is returned
unchanged. -/
theorem claim_C8_no_failures_witness :
    replaceInText (runCreates [(str "Hans", str "<P>")]) (str "xy") = str "xy" :=
  (claim_C8_no_failures (runCreates [(str "Hans", str "<P>")]) (str "xy")).1 (by decide)
